import Mathlib

/-!
# Verification of the `hypher` trie builder and encoder

This file gives a shallow embedding of `src/builder.rs`: the trie builder
(`insert`), the suffix-compression pass (`compress` / `compress_node`) and the
two-pass address encoder (`encode`, `how_many_bytes`, `to_be_bytes`), and
proves the specification's claims about them.

Bytes and machine integers are modelled as `Nat`/`Int`; fallible operations
(Rust panics, asserts and failing `try_from` conversions) are modelled with
`Option`, `none` meaning the Rust code aborts.
-/

namespace Hypher

/-- A node in the trie (`struct Node` in `builder.rs`): parallel lists of
transition bytes and target indices, plus an optional `(offset, length)`
reference into the shared priority ("levels") table. -/
structure Node where
  trans : List Nat
  targets : List Nat
  levels : Option (Nat × Nat)
deriving DecidableEq, Repr

instance : Inhabited Node := ⟨⟨[], [], none⟩⟩

/-- `Node::default()`: no transitions, no targets, no priority data. -/
def Node.default : Node := ⟨[], [], none⟩

/-- The builder state (`struct TrieBuilder`): root index, node table,
shared priority table of `(gap, priority)` pairs. -/
structure TrieBuilder where
  root : Nat
  nodes : List Node
  levels : List (Nat × Nat)
deriving DecidableEq, Repr

/-- `TrieBuilder::new()`: just the root node at index 0. -/
def TrieBuilder.new : TrieBuilder := ⟨0, [Node.default], []⟩

/-- `u8::is_ascii_digit` on a byte value. -/
def isDigit (b : Nat) : Bool := 48 ≤ b && b ≤ 57

/-- The main loop of `TrieBuilder::insert`: walk the pattern bytes, following
or creating transitions for letters and collecting `(dist, digit)` pairs for
digits.  Returns the final node table, the terminal state and the locally
built priority sequence. -/
def insertLoop : List Node → Nat → Nat → List (Nat × Nat) → List Nat →
    List Node × Nat × List (Nat × Nat)
  | nodes, state, _, levels, [] => (nodes, state, levels)
  | nodes, state, dist, levels, b :: bs =>
    if isDigit b then
      insertLoop nodes state 0 (levels ++ [(dist, b - 48)]) bs
    else
      let len := nodes.length
      let nd := nodes.getD state Node.default
      match nd.trans.findIdx? (· == b) with
      | some i => insertLoop nodes (nd.targets.getD i 0) (dist + 1) levels bs
      | none =>
        insertLoop
          (nodes.set state { nd with trans := nd.trans ++ [b], targets := nd.targets ++ [len] }
            ++ [Node.default])
          len (dist + 1) levels bs

/-- The `while offset < self.levels.len() && !self.levels[offset..].starts_with(&levels)`
search of `insert`, with the remaining distance `table.length - offset` as a
structural fuel argument. -/
def findOffsetAux (table seq : List (Nat × Nat)) : Nat → Nat → Nat
  | 0, offset => offset
  | fuel + 1, offset =>
    if seq.isPrefixOf (table.drop offset) then offset
    else findOffsetAux table seq fuel (offset + 1)

/-- Smallest offset at which `seq` occurs as a contiguous slice of `table`
(in the sense of `starts_with` on the suffix), or `table.length` if none. -/
def findOffset (table seq : List (Nat × Nat)) : Nat :=
  findOffsetAux table seq table.length 0

/-- The terminal state reached by `insert` for a given pattern. -/
def TrieBuilder.terminal (b : TrieBuilder) (pattern : List Nat) : Nat :=
  (insertLoop b.nodes 0 0 [] pattern).2.1

/-- `TrieBuilder::insert`. -/
def TrieBuilder.insert (b : TrieBuilder) (pattern : List Nat) : TrieBuilder :=
  let r := insertLoop b.nodes 0 0 [] pattern
  let nodes := r.1
  let state := r.2.1
  let seq := r.2.2
  let offset := findOffset b.levels seq
  let table := if offset = b.levels.length then b.levels ++ seq else b.levels
  let nd := nodes.getD state Node.default
  { root := b.root
    nodes := nodes.set state { nd with levels := some (offset, seq.length) }
    levels := table }

/-- Build a trie from a list of patterns, in order, starting from the fresh
builder (as `build_trie` does before compressing). -/
def buildFrom (ps : List (List Nat)) : TrieBuilder :=
  ps.foldl TrieBuilder.insert TrieBuilder.new

/-- Association-list lookup standing in for the `HashMap<Node, usize>` of
`compress`. -/
def assocFind (map : List (Node × Nat)) (x : Node) : Option Nat :=
  (map.find? (fun p => p.1 == x)).map (·.2)

/-- `TrieBuilder::compress_node`: canonicalize node `n` bottom-up, threading
the `HashMap` (as an association list) and the new node table through the
recursive canonicalization of the targets (the `foldl`).  `fuel` bounds the
recursion depth; the Rust code recurses structurally on the tree, and on
tries (targets strictly above their node) `fuel = nodes.length` never runs
out.  Returns the canonical index, the final map and the new table. -/
def compressNodeF (nodes : List Node) :
    Nat → Nat → List (Node × Nat) → List Node →
    Nat × List (Node × Nat) × List Node
  | 0, _, map, new => (0, map, new)
  | fuel + 1, n, map, new =>
    let x0 := nodes.getD n Node.default
    let rt := x0.targets.foldl
      (fun acc t =>
        let r := compressNodeF nodes fuel t acc.2.1 acc.2.2
        (acc.1 ++ [r.1], r.2.1, r.2.2))
      (([] : List Nat), map, new)
    let x : Node := ⟨x0.trans, rt.1, x0.levels⟩
    match assocFind rt.2.1 x with
    | some i => (i, rt.2.1, rt.2.2)
    | none => (rt.2.2.length, (x, rt.2.2.length) :: rt.2.1, rt.2.2 ++ [x])

/-- The fold of `compressNodeF` over a target list, with the step expanded;
definitionally equal to the fold inside `compressNodeF`. -/
def compressFold (nodes : List Node) (fuel : Nat) (ts : List Nat)
    (acc : List Nat × List (Node × Nat) × List Node) :
    List Nat × List (Node × Nat) × List Node :=
  ts.foldl (fun acc t =>
    (acc.1 ++ [(compressNodeF nodes fuel t acc.2.1 acc.2.2).1],
      (compressNodeF nodes fuel t acc.2.1 acc.2.2).2.1,
      (compressNodeF nodes fuel t acc.2.1 acc.2.2).2.2)) acc

/-- `TrieBuilder::compress`: canonicalize starting from node 0, replace the
node table and the root. -/
def TrieBuilder.compress (b : TrieBuilder) : TrieBuilder :=
  let r := compressNodeF b.nodes b.nodes.length 0 [] []
  { root := r.1, nodes := r.2.2, levels := b.levels }

/-! ## Walking (modelled from the spec)

`Modelled from the spec:` the runtime decoder/lookup engine is not part of the
analyzed source (§1 of the spec); its walk of the node table — "follow the
transition labelled by each byte in turn" (§6, §8) — is modelled here so that
language-preservation claims can be stated. -/

/-- Walk the node table from state `s` along the byte list `w`, following the
first transition equal to each byte. -/
def walk (nodes : List Node) : Nat → List Nat → Option Nat
  | s, [] => some s
  | s, b :: bs =>
    match nodes.get? s with
    | none => none
    | some nd =>
      match nd.trans.findIdx? (· == b) with
      | none => none
      | some i =>
        match nd.targets.get? i with
        | none => none
        | some t => walk nodes t bs

/-! ## The encoder -/

/-- Option-valued map, modelling a Rust loop that panics at the first failing
element. -/
def omap (f : α → Option β) : List α → Option (List β)
  | [] => some []
  | a :: l =>
    match f a with
    | none => none
    | some b =>
      match omap f l with
      | none => none
      | some bs => some (b :: bs)

/-- `how_many_bytes`: number of bytes needed for a signed delta; `none` models
the `panic!("too large number")`. -/
def how_many_bytes (num : Int) : Option Nat :=
  if -128 ≤ num ∧ num ≤ 127 then some 1
  else if -32768 ≤ num ∧ num ≤ 32767 then some 2
  else if -(2 ^ 23) ≤ num ∧ num < 2 ^ 23 then some 3
  else none

/-- `to_be_bytes`: big-endian encoding of a signed delta in `stride` bytes.
`none` models the `unwrap` panics for strides 1 and 2 and the
`panic!("invalid stride")`.  For stride 3 the Rust code computes
`(num + (1 << 23)) as usize`, a wrapping cast, modelled by `% 2^64`. -/
def to_be_bytes (num : Int) (stride : Nat) : Option (List Nat) :=
  if stride = 1 then
    if -128 ≤ num ∧ num ≤ 127 then some [((num % 256).toNat)] else none
  else if stride = 2 then
    if -32768 ≤ num ∧ num ≤ 32767 then
      some [((num % 65536).toNat) / 256, ((num % 65536).toNat) % 256]
    else none
  else if stride = 3 then
    let u := ((num + 2 ^ 23) % 2 ^ 64).toNat
    some [u / 2 ^ 16 % 256, u / 2 ^ 8 % 256, u % 256]
  else none

/-- `u32::try_from(..).unwrap().to_be_bytes()` on the root address. -/
def u32be (n : Nat) : Option (List Nat) :=
  if n < 2 ^ 32 then some [n / 2 ^ 24 % 256, n / 2 ^ 16 % 256, n / 2 ^ 8 % 256, n % 256]
  else none

/-- One byte of the serialized priority table; the two `assert!`s of `encode`
are the `none` cases. -/
def levelByte (p : Nat × Nat) : Option Nat :=
  if p.1 ≤ 24 ∧ p.2 < 10 then some (p.1 * 10 + p.2) else none

/-- Encoded size of a node given the stride used for its targets:
`1 + (trans.len() >= 31) + 2*(levels.is_some()) + (1 + stride) * trans.len()`. -/
def sizeWith (stride : Nat) (nd : Node) : Nat :=
  1 + (if 31 ≤ nd.trans.length then 1 else 0)
    + 2 * (if nd.levels.isSome then 1 else 0)
    + (1 + stride) * nd.trans.length

/-- `start = 4 + self.levels.len()`. -/
def TrieBuilder.start (b : TrieBuilder) : Nat := 4 + b.levels.length

/-- Pass-1 estimated address of node `i`: running total of pessimistic
(stride-3) sizes of all earlier nodes. -/
def TrieBuilder.est (b : TrieBuilder) (i : Nat) : Nat :=
  b.start + ∑ j ∈ Finset.range i, sizeWith 3 (b.nodes.getD j Node.default)

/-- Pass-2 stride for node `i`, with failures of `how_many_bytes` defaulted
to 3 (the default is irrelevant whenever `strides` succeeds).  Matches
`targets.iter().map(how_many_bytes(est[t]-est[i])).max().unwrap_or(1)`. -/
def TrieBuilder.strideD (b : TrieBuilder) (i : Nat) : Nat :=
  ((b.nodes.getD i Node.default).targets.map
    (fun t => (how_many_bytes ((b.est t : Int) - b.est i)).getD 3)).foldl max 1

/-- Pass-2 strides with failure: `none` iff `how_many_bytes` panics for some
estimated delta. -/
def TrieBuilder.strides (b : TrieBuilder) : Option (List Nat) :=
  omap (fun i =>
      (omap (fun t => how_many_bytes ((b.est t : Int) - b.est i))
        (b.nodes.getD i Node.default).targets).map
      (fun l => l.foldl max 1))
    (List.range b.nodes.length)

/-- True (pass-2) address of node `i`: running total of sizes computed with
the chosen per-node strides. -/
def TrieBuilder.addr (b : TrieBuilder) (i : Nat) : Nat :=
  b.start + ∑ j ∈ Finset.range i, sizeWith (b.strideD j) (b.nodes.getD j Node.default)

/-- The optional true-transition-count byte: the sentinel form for counts
≥ 31, `none` modelling the `expect("too many transitions")` panic. -/
def extraBytes (c : Nat) : Option (List Nat) :=
  if 31 ≤ c then (if c ≤ 255 then some [c] else none) else some []

/-- The two priority-reference bytes, `none` modelling the two reference
`assert!`s of `encode`. -/
def refBytes : Option (Nat × Nat) → Option (List Nat)
  | none => some []
  | some (o, l) =>
    if 4 + o < 4096 ∧ l < 16 then
      some [(4 + o) >>> 4, (((4 + o) &&& 15) <<< 4) ||| l]
    else none

/-- The serialized record of node `i` (header byte, optional true-count byte,
optional priority-reference bytes, transition bytes, target delta bytes).
`none` models the asserts/panics of the node-encoding loop of `encode`. -/
def TrieBuilder.encodeNodeAt (b : TrieBuilder) (i : Nat) : Option (List Nat) :=
  let nd := b.nodes.getD i Node.default
  let stride := b.strideD i
  let header :=
    ((if nd.levels.isSome then 1 else 0) <<< 7) ||| (stride <<< 5) ||| min nd.trans.length 31
  (extraBytes nd.trans.length).bind fun ex =>
    (refBytes nd.levels).bind fun rf =>
      (omap (fun t => to_be_bytes ((b.addr t : Int) - b.addr i) stride) nd.targets).bind
        fun ds => some ([header] ++ ex ++ rf ++ nd.trans ++ ds.flatten)

/-- `TrieBuilder::encode`: the full artifact, `none` if any panic/assert of
the Rust code fires. -/
def TrieBuilder.encode (b : TrieBuilder) : Option (List Nat) :=
  b.strides.bind fun _ =>
    (u32be (b.addr b.root)).bind fun rootB =>
      (omap levelByte b.levels).bind fun lvB =>
        (omap b.encodeNodeAt (List.range b.nodes.length)).bind fun recs =>
          some (rootB ++ lvB ++ recs.flatten)

/-! ## Subtree shapes

The spec's notion of "isomorphic subtrees" (identical transitions,
canonicalized targets, priority-ref, recursively) is captured by unravelling
a node of the table into its tree of reachable structure. -/

/-- The unravelled shape of a subtree: transition labels, child shapes,
priority reference. -/
inductive STree where
  | mk : List Nat → List STree → Option (Nat × Nat) → STree

mutual

/-- Number of nodes of an unravelled subtree. -/
def STree.size : STree → Nat
  | .mk _ ch _ => 1 + sizeL ch

def sizeL : List STree → Nat
  | [] => 0
  | t :: ts => STree.size t + sizeL ts

end

/-- Unravel the subtree of the table rooted at index `n`, up to depth `fuel`
(the fuel is irrelevant as soon as it exceeds the height, see
`treeOfAux_congr`). -/
def treeOfAux (nodes : List Node) : Nat → Nat → STree
  | 0, _ => .mk [] [] none
  | fuel + 1, n =>
    let nd := nodes.getD n Node.default
    .mk nd.trans (nd.targets.map (treeOfAux nodes fuel)) nd.levels

/-- The subtree shape rooted at index `n`; `nodes.length + 1` levels of fuel
always suffice on tables whose targets strictly decrease or strictly
increase. -/
def treeAt (nodes : List Node) (n : Nat) : STree :=
  treeOfAux nodes (nodes.length + 1) n

/-- The shape invariant of tries built by `insert`: every target points
strictly upwards and into the table. -/
def RawInv (b : TrieBuilder) : Prop :=
  ∀ i < b.nodes.length, ∀ t ∈ (b.nodes.getD i Node.default).targets,
    i < t ∧ t < b.nodes.length

instance (b : TrieBuilder) : Decidable (RawInv b) := by
  unfold RawInv
  infer_instance

/-! ## The encoder's fatal conditions (C4) -/

/-- Some pass-1 estimated target delta falls outside the 3-byte signed range
(`how_many_bytes` panics). -/
def TrieBuilder.badDelta (b : TrieBuilder) : Bool :=
  (List.range b.nodes.length).any fun i =>
    (b.nodes.getD i Node.default).targets.any fun t =>
      !(decide (-(2 ^ 23) ≤ (b.est t : Int) - b.est i)
        && decide ((b.est t : Int) - b.est i < 2 ^ 23))

/-- Some node has more than 255 transitions (`"too many transitions"`). -/
def TrieBuilder.badTrans (b : TrieBuilder) : Bool :=
  (List.range b.nodes.length).any fun i =>
    decide (255 < (b.nodes.getD i Node.default).trans.length)

/-- Some priority-table entry has gap > 24 or priority ≥ 10. -/
def TrieBuilder.badLevels (b : TrieBuilder) : Bool :=
  b.levels.any fun p => decide (24 < p.1) || decide (10 ≤ p.2)

/-- Some priority reference has biased offset ≥ 4096 or length ≥ 16. -/
def TrieBuilder.badRef (b : TrieBuilder) : Bool :=
  (List.range b.nodes.length).any fun i =>
    match (b.nodes.getD i Node.default).levels with
    | none => false
    | some (o, l) => decide (4096 ≤ 4 + o) || decide (16 ≤ l)

/-- The signed range representable by `stride` big-endian bytes. -/
def inRange (num : Int) (stride : Nat) : Prop :=
  -(2 ^ (8 * stride - 1)) ≤ num ∧ num < 2 ^ (8 * stride - 1)

/-- A builder whose priority table is so large that the root's final address
does not fit in `u32`, while every size-limit condition of the spec holds. -/
def bigBuilder : TrieBuilder :=
  ⟨0, [Node.default], List.replicate (2 ^ 32) (0, 0)⟩

/-- A node with exactly 31 transitions, for exercising the sentinel header
form. -/
def node31 : Node :=
  ⟨(List.range 31).map (fun k => 100 + k), List.replicate 31 0, none⟩

/-- A two-node builder whose second node has 31 transitions. -/
def b31 : TrieBuilder := ⟨0, [Node.default, node31], []⟩

/-- Invariant tying the `compress` map and new table together: the map
soundly and completely indexes the new table, new-table targets point
strictly downwards, every new entry unravels to the subtree of some original
node, and distinct new entries have distinct subtrees (canonicity). -/
def CInv (nodes : List Node) (map : List (Node × Nat)) (new : List Node) : Prop :=
  (∀ p ∈ map, p.2 < new.length ∧ new.getD p.2 Node.default = p.1) ∧
  (∀ k < new.length, (new.getD k Node.default, k) ∈ map) ∧
  (∀ k < new.length, ∀ t ∈ (new.getD k Node.default).targets, t < k) ∧
  (∀ k < new.length, ∃ i < nodes.length, treeAt nodes i = treeOfAux new (k + 1) k) ∧
  (∀ k < new.length, ∀ k' < new.length,
    treeOfAux new (k + 1) k = treeOfAux new (k' + 1) k' → k = k')

/-- Result specification of `compressNodeF` on node `n` from state
`(map, new)`: the map only grows, the new table is only appended to, the
invariant is preserved, the returned index denotes the exact subtree of `n`,
entries created during the call have subtrees no larger than `n`'s, and the
returned index is either pre-existing or the freshly appended last entry. -/
def CSpec (nodes : List Node) (n : Nat) (map : List (Node × Nat)) (new : List Node)
    (r : Nat × List (Node × Nat) × List Node) : Prop :=
  (∀ p ∈ map, p ∈ r.2.1) ∧
  new <+: r.2.2 ∧
  CInv nodes r.2.1 r.2.2 ∧
  r.1 < r.2.2.length ∧
  treeOfAux r.2.2 (r.1 + 1) r.1 = treeAt nodes n ∧
  (∀ k, new.length ≤ k → k < r.2.2.length →
    STree.size (treeOfAux r.2.2 (k + 1) k) ≤ STree.size (treeAt nodes n)) ∧
  (r.1 < new.length ∨ r.1 + 1 = r.2.2.length)

/-! ## Well-formedness of builder states -/

/-- Every stored target is a valid index into the node table. -/
def wfTargets (b : TrieBuilder) : Prop :=
  ∀ i < b.nodes.length, ∀ t ∈ (b.nodes.getD i Node.default).targets, t < b.nodes.length

instance (b : TrieBuilder) : Decidable (wfTargets b) := by
  unfold wfTargets; infer_instance

lemma wfTargets_all (b : TrieBuilder) (h : wfTargets b) :
    ∀ i, ∀ t ∈ (b.nodes.getD i Node.default).targets, t < b.nodes.length := by
  intro i t ht
  by_cases hi : i < b.nodes.length
  · exact h i hi t ht
  · rw [List.getD_eq_default _ _ (by omega)] at ht
    simp [Node.default] at ht

/-! ## List access helpers -/

lemma getD_set_self {l : List α} {i : Nat} {a d : α} (h : i < l.length) :
    (l.set i a).getD i d = a := by
  simp [List.getD, List.getElem?_set_self', h]

lemma getD_set_ne {l : List α} {i j : Nat} {a d : α} (h : i ≠ j) :
    (l.set i a).getD j d = l.getD j d := by
  simp [List.getD, List.getElem?_set_ne h]

lemma getD_mem {l : List α} {i : Nat} {d : α} (h : i < l.length) : l.getD i d ∈ l := by
  rw [List.getD_eq_getElem l d h]
  exact List.getElem_mem h

lemma getD_append_left {l l' : List α} {j : Nat} {d : α} (h : j < l.length) :
    (l ++ l').getD j d = l.getD j d := by
  simp [List.getD, List.getElem?_append_left h]

lemma getD_append_right {l l' : List α} {j : Nat} {d : α} (h : l.length ≤ j) :
    (l ++ l').getD j d = l'.getD (j - l.length) d := by
  simp [List.getD, List.getElem?_append_right h]

lemma getD_singleton_default (j : Nat) :
    (([Node.default] : List Node).getD j Node.default) = Node.default := by
  cases j <;> rfl

/-! ## The offset search (C3) -/

lemma findOffsetAux_succ (table seq : List (Nat × Nat)) (f offset : Nat) :
    findOffsetAux table seq (f + 1) offset =
      if seq.isPrefixOf (table.drop offset) then offset
      else findOffsetAux table seq f (offset + 1) := rfl

lemma findOffsetAux_ge (table seq : List (Nat × Nat)) :
    ∀ fuel offset, offset ≤ findOffsetAux table seq fuel offset := by
  intro fuel
  induction fuel with
  | zero => intro offset; simp [findOffsetAux]
  | succ f ih =>
    intro offset
    unfold findOffsetAux
    split
    · exact le_refl _
    · exact le_trans (by omega) (ih (offset + 1))

lemma findOffsetAux_le (table seq : List (Nat × Nat)) :
    ∀ fuel offset, findOffsetAux table seq fuel offset ≤ offset + fuel := by
  intro fuel
  induction fuel with
  | zero => intro offset; simp [findOffsetAux]
  | succ f ih =>
    intro offset
    unfold findOffsetAux
    split
    · omega
    · have := ih (offset + 1); omega

lemma findOffsetAux_not_before (table seq : List (Nat × Nat)) :
    ∀ fuel offset k, offset ≤ k → k < findOffsetAux table seq fuel offset →
      ¬ (seq.isPrefixOf (table.drop k) = true) := by
  intro fuel
  induction fuel with
  | zero =>
    intro offset k h1 h2
    simp [findOffsetAux] at h2
    omega
  | succ f ih =>
    intro offset k h1 h2
    unfold findOffsetAux at h2
    by_cases hp : seq.isPrefixOf (table.drop offset) = true
    · simp [hp] at h2; omega
    · simp [hp] at h2
      rcases Nat.eq_or_lt_of_le h1 with rfl | hlt
      · exact hp
      · exact ih (offset + 1) k (by omega) h2

lemma findOffsetAux_found (table seq : List (Nat × Nat)) :
    ∀ fuel offset, offset + fuel = table.length →
      findOffsetAux table seq fuel offset < table.length →
      seq.isPrefixOf (table.drop (findOffsetAux table seq fuel offset)) = true := by
  intro fuel
  induction fuel with
  | zero =>
    intro offset h1 h2
    simp only [findOffsetAux] at h2
    exact absurd h2 (by omega)
  | succ f ih =>
    intro offset h1 h2
    rw [findOffsetAux_succ] at h2 ⊢
    cases hp : seq.isPrefixOf (table.drop offset) with
    | true => simp only [hp, if_true]
    | false =>
      simp only [hp, Bool.false_eq_true, if_false] at h2 ⊢
      exact ih (offset + 1) (by omega) h2

lemma findOffset_le (table seq : List (Nat × Nat)) :
    findOffset table seq ≤ table.length := by
  have := findOffsetAux_le table seq table.length 0
  simpa [findOffset] using this

lemma findOffset_not_before (table seq : List (Nat × Nat)) :
    ∀ k < findOffset table seq, ¬ (seq <+: table.drop k) := by
  intro k hk hp
  exact findOffsetAux_not_before table seq table.length 0 k (Nat.zero_le _)
    (by simpa [findOffset] using hk) (List.isPrefixOf_iff_prefix.2 hp)

lemma findOffset_found (table seq : List (Nat × Nat))
    (h : findOffset table seq < table.length) :
    seq <+: table.drop (findOffset table seq) := by
  exact List.isPrefixOf_iff_prefix.1
    (findOffsetAux_found table seq table.length 0 (by omega) (by simpa [findOffset] using h))

/-- A nonempty occurrence forces its offset inside the table. -/
lemma occurs_lt_length {table seq : List (Nat × Nat)} {k : Nat}
    (hne : seq ≠ []) (h : seq <+: table.drop k) : k < table.length := by
  have h1 : seq.length ≤ (table.drop k).length := h.length_le
  have h2 : 0 < seq.length := List.length_pos.2 hne
  simp [List.length_drop] at h1
  omega

/-! ## `insertLoop` invariants -/

lemma insertLoop_inv :
    ∀ (bs : List Nat) (nodes : List Node) (state dist : Nat) (acc : List (Nat × Nat)),
      state < nodes.length →
      (∀ i, ∀ t ∈ (nodes.getD i Node.default).targets, t < nodes.length) →
      (insertLoop nodes state dist acc bs).2.1 < (insertLoop nodes state dist acc bs).1.length ∧
      (∀ i, ∀ t ∈ ((insertLoop nodes state dist acc bs).1.getD i Node.default).targets,
        t < (insertLoop nodes state dist acc bs).1.length) ∧
      nodes.length ≤ (insertLoop nodes state dist acc bs).1.length := by
  intro bs
  induction bs with
  | nil =>
    intro nodes state dist acc hs hw
    exact ⟨hs, hw, le_refl _⟩
  | cons b bs ih =>
    intro nodes state dist acc hs hw
    by_cases hd : isDigit b
    · simpa [insertLoop, hd] using ih nodes state 0 (acc ++ [(dist, b - 48)]) hs hw
    · simp only [insertLoop, hd, Bool.false_eq_true, if_false]
      cases hfind : (nodes.getD state Node.default).trans.findIdx? (· == b) with
      | some i =>
        simp only []
        apply ih
        · by_cases hi : i < (nodes.getD state Node.default).targets.length
          · exact hw state ((nodes.getD state Node.default).targets.getD i 0) (getD_mem hi)
          · rw [List.getD_eq_default _ _ (by omega)]
            omega
        · exact hw
      | none =>
        simp only []
        set nd := nodes.getD state Node.default with hnd
        set nodes' := nodes.set state
          { nd with trans := nd.trans ++ [b], targets := nd.targets ++ [nodes.length] }
          ++ [Node.default] with hnodes'
        have hlen' : nodes'.length = nodes.length + 1 := by
          simp [hnodes']
        have hwf' : ∀ i, ∀ t ∈ (nodes'.getD i Node.default).targets, t < nodes'.length := by
          intro i t ht
          rw [hlen']
          by_cases hi : i < nodes.length
          · rw [hnodes', getD_append_left (by simpa using hi)] at ht
            by_cases his : i = state
            · subst his
              rw [getD_set_self hi] at ht
              simp only [] at ht
              rcases List.mem_append.1 ht with h1 | h1
              · exact lt_trans (hw i t h1) (by omega)
              · simp at h1; omega
            · rw [getD_set_ne (fun h => his h.symm)] at ht
              exact lt_trans (hw i t ht) (by omega)
          · rw [hnodes', getD_append_right (by simpa using hi), getD_singleton_default] at ht
            simp [Node.default] at ht
        obtain ⟨ha, hb, hc⟩ := ih nodes' nodes.length (dist + 1) acc (by omega) hwf'
        exact ⟨ha, hb, by omega⟩

/-! ## C3: priority-table substring reuse -/

/-- C3: when `insert` resolves a pattern's locally built `(gap, priority)`
sequence `seq` against the shared table: if `seq` occurs as a contiguous
slice of the table (i.e. is a prefix of some suffix), the table is left
unchanged and the chosen offset is the smallest such occurrence; otherwise
the sequence is appended and the offset is the old table length.  In both
cases the terminal node's reference `(offset, seq.length)` denotes a valid
slice of the updated table equal to `seq`. -/
theorem c3_priority_reuse (b : TrieBuilder) (p : List Nat)
    (h0 : 0 < b.nodes.length) (hw : wfTargets b) :
    ((∃ k, (insertLoop b.nodes 0 0 [] p).2.2 <+: b.levels.drop k) →
      (b.insert p).levels = b.levels ∧
      ((insertLoop b.nodes 0 0 [] p).2.2 <+:
        b.levels.drop (findOffset b.levels (insertLoop b.nodes 0 0 [] p).2.2)) ∧
      (∀ k, (insertLoop b.nodes 0 0 [] p).2.2 <+: b.levels.drop k →
        findOffset b.levels (insertLoop b.nodes 0 0 [] p).2.2 ≤ k)) ∧
    ((¬ ∃ k, (insertLoop b.nodes 0 0 [] p).2.2 <+: b.levels.drop k) →
      (b.insert p).levels = b.levels ++ (insertLoop b.nodes 0 0 [] p).2.2 ∧
      findOffset b.levels (insertLoop b.nodes 0 0 [] p).2.2 = b.levels.length) ∧
    (((b.insert p).nodes.getD (b.terminal p) Node.default).levels
        = some (findOffset b.levels (insertLoop b.nodes 0 0 [] p).2.2,
            (insertLoop b.nodes 0 0 [] p).2.2.length) ∧
      ((b.insert p).levels.drop
          (findOffset b.levels (insertLoop b.nodes 0 0 [] p).2.2)).take
          (insertLoop b.nodes 0 0 [] p).2.2.length
        = (insertLoop b.nodes 0 0 [] p).2.2 ∧
      findOffset b.levels (insertLoop b.nodes 0 0 [] p).2.2
          + (insertLoop b.nodes 0 0 [] p).2.2.length ≤ (b.insert p).levels.length) := by
  set seq := (insertLoop b.nodes 0 0 [] p).2.2 with hseq
  set off := findOffset b.levels seq with hoff
  have hle := findOffset_le b.levels seq
  -- the three cases for the final table
  have htable : (b.insert p).levels = if off = b.levels.length then b.levels ++ seq else b.levels := by
    simp [TrieBuilder.insert, hoff, hseq]
  refine ⟨?_, ?_, ?_⟩
  · -- occurrence exists
    rintro ⟨k, hk⟩
    by_cases hne : seq = []
    · have hoff0 : off = 0 := by
        rw [hoff, hne]
        unfold findOffset
        cases hl : b.levels.length with
        | zero => simp [findOffsetAux]
        | succ m => simp [findOffsetAux, List.isPrefixOf]
      refine ⟨?_, ?_, ?_⟩
      · rw [htable]
        split <;> simp [hne]
      · rw [hne, hoff0]
        exact List.nil_prefix
      · intro k _; omega
    · have hklt : k < b.levels.length := occurs_lt_length hne hk
      have hofflt : off < b.levels.length := by
        rcases Nat.lt_or_ge off b.levels.length with h | h
        · exact h
        · exfalso
          exact findOffset_not_before b.levels seq k (by omega) hk
      refine ⟨?_, findOffset_found b.levels seq hofflt, ?_⟩
      · rw [htable]; simp [Nat.ne_of_lt hofflt]
      · intro k' hk'
        by_contra hcon
        exact findOffset_not_before b.levels seq k' (by omega) hk'
  · -- no occurrence
    intro hno
    have hoffeq : off = b.levels.length := by
      rcases Nat.lt_or_ge off b.levels.length with h | h
      · exact absurd ⟨off, findOffset_found b.levels seq h⟩ hno
      · omega
    exact ⟨by rw [htable]; simp [hoffeq], hoffeq⟩
  · -- the terminal reference denotes the sequence
    have hterm : ((b.insert p).nodes.getD (b.terminal p) Node.default).levels
        = some (off, seq.length) := by
      have hinv := insertLoop_inv p b.nodes 0 0 [] h0 (wfTargets_all b hw)
      simp only [TrieBuilder.insert, TrieBuilder.terminal]
      rw [getD_set_self hinv.1]
    have hslice : ((b.insert p).levels.drop off).take seq.length = seq ∧
        off + seq.length ≤ (b.insert p).levels.length := by
      rw [htable]
      by_cases heq : off = b.levels.length
      · constructor
        · rw [if_pos heq, heq, List.drop_left, List.take_length]
        · rw [if_pos heq]
          simp [heq]
      · simp only [if_neg heq]
        have hofflt : off < b.levels.length := by omega
        have hpre := findOffset_found b.levels seq hofflt
        constructor
        · rw [List.prefix_iff_eq_take] at hpre
          rw [← hpre]
        · have := hpre.length_le
          simp [List.length_drop] at this
          omega
    exact ⟨hterm, hslice.1, hslice.2⟩

/-- Witness for `c3_priority_reuse`: after inserting `"a1"`, inserting `"b1"`
resolves the sequence `[(1,1)]` against the table `[(1,1)]`, finds it at
offset 0 and leaves the table unchanged. -/
theorem c3_priority_reuse_witness :
    0 < (buildFrom [[97, 49]]).nodes.length ∧ wfTargets (buildFrom [[97, 49]]) ∧
    ((buildFrom [[97, 49]]).insert [98, 49]).levels = (buildFrom [[97, 49]]).levels :=
  ⟨by decide, by decide,
    ((c3_priority_reuse (buildFrom [[97, 49]]) [98, 49] (by decide) (by decide)).1
      ⟨0, by decide⟩).1⟩

/-! ## Encoder record structure (C5, C10) -/

lemma omap_eq_none_iff {f : α → Option β} {l : List α} :
    omap f l = none ↔ ∃ a ∈ l, f a = none := by
  induction l with
  | nil => simp [omap]
  | cons a l ih =>
    cases hfa : f a with
    | none => simp [omap, hfa]
    | some b =>
      cases hl : omap f l with
      | none =>
        obtain ⟨x, hx, hfx⟩ := ih.1 hl
        simp only [omap, hfa, hl, List.mem_cons]
        constructor
        · intro _
          exact ⟨x, Or.inr hx, hfx⟩
        · intro _
          exact trivial
      | some bs =>
        simp only [omap, hfa, hl, List.mem_cons]
        constructor
        · intro hcon
          exact absurd hcon (by simp)
        · rintro ⟨x, hx | hx, hfx⟩
          · rw [hx, hfa] at hfx
            cases hfx
          · have := ih.2 ⟨x, hx, hfx⟩
            rw [this] at hl
            cases hl

lemma omap_length {f : α → Option β} :
    ∀ {l : List α} {bs : List β}, omap f l = some bs → bs.length = l.length := by
  intro l
  induction l with
  | nil => intro bs h; simp [omap] at h; simp [← h]
  | cons a l ih =>
    intro bs h
    simp only [omap] at h
    cases hfa : f a with
    | none => simp [hfa] at h
    | some b =>
      rw [hfa] at h
      cases hl : omap f l with
      | none => simp [hl] at h
      | some cs =>
        rw [hl] at h
        simp at h
        rw [← h]
        simp [ih hl]

lemma omap_flatten_length {f : α → Option (List β)} {k : Nat} :
    ∀ {l : List α} {bs : List (List β)}, omap f l = some bs →
      (∀ a ∈ l, ∀ c, f a = some c → c.length = k) →
      bs.flatten.length = k * l.length := by
  intro l
  induction l with
  | nil =>
    intro bs h _
    simp [omap] at h
    subst h
    simp
  | cons a l ih =>
    intro bs h hall
    simp only [omap] at h
    cases hfa : f a with
    | none => simp [hfa] at h
    | some c =>
      rw [hfa] at h
      cases hl : omap f l with
      | none => simp [hl] at h
      | some cs =>
        rw [hl] at h
        simp at h
        subst h
        have h1 : c.length = k := hall a (by simp) c hfa
        have h2 : cs.flatten.length = k * l.length :=
          ih hl (fun x hx => hall x (by simp [hx]))
        simp only [List.flatten_cons, List.length_append, List.length_cons, h1, h2]
        ring

lemma to_be_bytes_length {num : Int} {stride : Nat} {l : List Nat}
    (h : to_be_bytes num stride = some l) : l.length = stride := by
  unfold to_be_bytes at h
  by_cases h1 : stride = 1
  · rw [if_pos h1] at h
    split at h
    · injection h with h2
      subst h2
      simp [h1]
    · cases h
  · rw [if_neg h1] at h
    by_cases h2 : stride = 2
    · rw [if_pos h2] at h
      split at h
      · injection h with h3
        subst h3
        simp [h2]
      · cases h
    · rw [if_neg h2] at h
      by_cases h3 : stride = 3
      · rw [if_pos h3] at h
        simp only [] at h
        injection h with h4
        subst h4
        simp [h3]
      · rw [if_neg h3] at h
        cases h

lemma how_many_bytes_getD_le (x : Int) : (how_many_bytes x).getD 3 ≤ 3 := by
  unfold how_many_bytes
  split
  · simp
  · split
    · simp
    · split <;> simp

lemma foldl_max_bounds {l : List Nat} :
    ∀ {acc : Nat}, 1 ≤ acc → acc ≤ 3 → (∀ v ∈ l, v ≤ 3) →
      1 ≤ l.foldl max acc ∧ l.foldl max acc ≤ 3 := by
  induction l with
  | nil => intro acc h1 h3 _; simpa using ⟨h1, h3⟩
  | cons v l ih =>
    intro acc h1 h3 hall
    simp only [List.foldl_cons]
    exact ih (le_trans h1 (Nat.le_max_left _ _))
      (max_le h3 (hall v (by simp)))
      (fun w hw => hall w (by simp [hw]))

/-- The chosen stride of any node is always between 1 and 3. -/
lemma strideD_bounds (b : TrieBuilder) (i : Nat) :
    1 ≤ b.strideD i ∧ b.strideD i ≤ 3 := by
  unfold TrieBuilder.strideD
  apply foldl_max_bounds (by omega) (by omega)
  intro v hv
  simp only [List.mem_map] at hv
  obtain ⟨t, _, rfl⟩ := hv
  exact how_many_bytes_getD_le _

/-- Bit layout of the header byte, checked exhaustively over the bounded
ranges of its three fields. -/
lemma header_bits : ∀ a < 2, ∀ s < 4, ∀ m < 32,
    (((a <<< 7) ||| (s <<< 5) ||| m)).testBit 7 = decide (a = 1) ∧
    ((a <<< 7) ||| (s <<< 5) ||| m) / 32 % 4 = s ∧
    ((a <<< 7) ||| (s <<< 5) ||| m) % 32 = m := by
  decide

/-- Structure of a successfully encoded node record. -/
lemma encodeNodeAt_eq_some {b : TrieBuilder} {i : Nat} {r : List Nat}
    (h : b.encodeNodeAt i = some r) :
    ∃ (ex rf : List Nat) (ds : List (List Nat)),
      r = [(((if (b.nodes.getD i Node.default).levels.isSome then 1 else 0) <<< 7)
            ||| (b.strideD i <<< 5) ||| min (b.nodes.getD i Node.default).trans.length 31)]
          ++ ex ++ rf ++ (b.nodes.getD i Node.default).trans ++ ds.flatten ∧
      (31 ≤ (b.nodes.getD i Node.default).trans.length →
        ex = [(b.nodes.getD i Node.default).trans.length]) ∧
      ((b.nodes.getD i Node.default).trans.length < 31 → ex = []) ∧
      rf.length = 2 * (if (b.nodes.getD i Node.default).levels.isSome then 1 else 0) ∧
      ds.flatten.length = b.strideD i * (b.nodes.getD i Node.default).targets.length := by
  simp only [TrieBuilder.encodeNodeAt, Option.bind_eq_some] at h
  obtain ⟨ex, heq1, rf, heq2, ds, heq3, h⟩ := h
  injection h with h
  refine ⟨ex, rf, ds, h.symm, ?_, ?_, ?_, ?_⟩
  · intro h31
    unfold extraBytes at heq1
    rw [if_pos h31] at heq1
    split at heq1
    · injection heq1 with heq1
      exact heq1.symm
    · cases heq1
  · intro h31
    unfold extraBytes at heq1
    rw [if_neg (by omega)] at heq1
    injection heq1 with heq1
    exact heq1.symm
  · cases hlv : (b.nodes.getD i Node.default).levels with
    | none =>
      rw [hlv] at heq2
      simp only [refBytes] at heq2
      injection heq2 with heq2
      simp [← heq2, hlv]
    | some p =>
      obtain ⟨o, l⟩ := p
      rw [hlv] at heq2
      simp only [refBytes] at heq2
      split at heq2
      · injection heq2 with heq2
        simp [← heq2, hlv]
      · cases heq2
  · exact omap_flatten_length heq3
      (fun t _ c hc => to_be_bytes_length hc)

/-- Header-byte and record-length facts shared by several theorems. -/
lemma encodeNodeAt_header_facts (b : TrieBuilder) (i : Nat) (r : List Nat)
    (h : b.encodeNodeAt i = some r) :
    (r.headD 0).testBit 7 = (b.nodes.getD i Node.default).levels.isSome ∧
    (r.headD 0) / 32 % 4 = b.strideD i ∧
    1 ≤ b.strideD i ∧ b.strideD i ≤ 3 ∧
    (r.headD 0) % 32 = min (b.nodes.getD i Node.default).trans.length 31 ∧
    r.length = 1 + (if 31 ≤ (b.nodes.getD i Node.default).trans.length then 1 else 0)
      + 2 * (if (b.nodes.getD i Node.default).levels.isSome then 1 else 0)
      + (b.nodes.getD i Node.default).trans.length
      + b.strideD i * (b.nodes.getD i Node.default).targets.length ∧
    (31 ≤ (b.nodes.getD i Node.default).trans.length →
      r.getD 1 0 = (b.nodes.getD i Node.default).trans.length) := by
  obtain ⟨ex, rf, ds, hr, hex31, hexlt, hrf, hds⟩ := encodeNodeAt_eq_some h
  obtain ⟨hs1, hs3⟩ := strideD_bounds b i
  have hbits := header_bits (if (b.nodes.getD i Node.default).levels.isSome then 1 else 0)
    (by split <;> omega) (b.strideD i) (by omega)
    (min (b.nodes.getD i Node.default).trans.length 31) (by omega)
  have hhead : r.headD 0 =
      (((if (b.nodes.getD i Node.default).levels.isSome then 1 else 0) <<< 7)
        ||| (b.strideD i <<< 5) ||| min (b.nodes.getD i Node.default).trans.length 31) := by
    rw [hr]; rfl
  refine ⟨?_, ?_, hs1, hs3, ?_, ?_, ?_⟩
  · rw [hhead, hbits.1]
    cases hlv : (b.nodes.getD i Node.default).levels.isSome <;> simp [hlv]
  · rw [hhead, hbits.2.1]
  · rw [hhead, hbits.2.2]
  · rw [hr]
    simp only [List.length_append, List.length_cons, List.length_nil]
    have hexlen : ex.length = (if 31 ≤ (b.nodes.getD i Node.default).trans.length then 1 else 0) := by
      by_cases h31 : 31 ≤ (b.nodes.getD i Node.default).trans.length
      · rw [hex31 h31, if_pos h31]; rfl
      · rw [hexlt (by omega), if_neg h31]; rfl
    rw [hexlen, hrf, hds]
  · intro h31
    rw [hr, hex31 h31]
    rfl

/-- C5: each node record starts with a header byte whose top bit (bit 7) is
set iff the node has priority data, whose next two bits (bits 5–6) are the
stride — always 1, 2 or 3 — and whose bottom 5 bits are
`min (transition count) 31`; a node with ≥ 31 transitions (in particular
exactly 31) is emitted in the sentinel form with an extra true-count byte
(the record's second byte equals the true count), and a node with ≤ 30
transitions (in particular 30) is emitted without the extra byte, as the
record-length formula shows. -/
theorem c5_header_encoding (b : TrieBuilder) (i : Nat) (r : List Nat)
    (h : b.encodeNodeAt i = some r) :
    (r.headD 0).testBit 7 = (b.nodes.getD i Node.default).levels.isSome ∧
    (r.headD 0) / 32 % 4 = b.strideD i ∧
    1 ≤ b.strideD i ∧ b.strideD i ≤ 3 ∧
    (r.headD 0) % 32 = min (b.nodes.getD i Node.default).trans.length 31 ∧
    r.length = 1 + (if 31 ≤ (b.nodes.getD i Node.default).trans.length then 1 else 0)
      + 2 * (if (b.nodes.getD i Node.default).levels.isSome then 1 else 0)
      + (b.nodes.getD i Node.default).trans.length
      + b.strideD i * (b.nodes.getD i Node.default).targets.length ∧
    (31 ≤ (b.nodes.getD i Node.default).trans.length →
      r.getD 1 0 = (b.nodes.getD i Node.default).trans.length) :=
  encodeNodeAt_header_facts b i r h

/-- With no digit bytes, the locally built priority sequence stays empty. -/
lemma insertLoop_seq_nodigit :
    ∀ (bs : List Nat), (∀ c ∈ bs, isDigit c = false) →
      ∀ (nodes : List Node) (state dist : Nat) (acc : List (Nat × Nat)),
      (insertLoop nodes state dist acc bs).2.2 = acc := by
  intro bs
  induction bs with
  | nil => intro _ nodes state dist acc; rfl
  | cons b bs ih =>
    intro hnd nodes state dist acc
    have hb : isDigit b = false := hnd b (by simp)
    simp only [insertLoop, hb, Bool.false_eq_true, if_false]
    cases hfind : (nodes.getD state Node.default).trans.findIdx? (· == b) with
    | some i => exact ih (fun c hc => hnd c (by simp [hc])) _ _ _ _
    | none => exact ih (fun c hc => hnd c (by simp [hc])) _ _ _ _

/-- Searching for the empty sequence always yields offset 0. -/
lemma findOffset_nil (table : List (Nat × Nat)) : findOffset table [] = 0 := by
  unfold findOffset
  cases table with
  | nil => rfl
  | cons p t =>
    rw [show ((p :: t : List (Nat × Nat)).length) = t.length + 1 from rfl, findOffsetAux_succ]
    simp [List.isPrefixOf]

/-- C10: every `insert` sets the terminal node's priority reference to
`some`; a pattern with no digit bytes gets the zero-length reference
`(0, 0)`; and an encoded node record with priority data always has the
has-priority header bit set and carries the two extra reference bytes (its
length formula includes `+ 2`) even when the reference length is zero. -/
theorem c10_ref_always_some :
    (∀ (b : TrieBuilder) (p : List Nat), 0 < b.nodes.length → wfTargets b →
      (((b.insert p).nodes.getD (b.terminal p) Node.default).levels).isSome = true) ∧
    (∀ (b : TrieBuilder) (p : List Nat), 0 < b.nodes.length → wfTargets b →
      (∀ c ∈ p, isDigit c = false) →
      ((b.insert p).nodes.getD (b.terminal p) Node.default).levels = some (0, 0)) ∧
    (∀ (b : TrieBuilder) (i : Nat) (r : List Nat), b.encodeNodeAt i = some r →
      ((b.nodes.getD i Node.default).levels).isSome = true →
      (r.headD 0).testBit 7 = true ∧
      r.length = 1 + (if 31 ≤ (b.nodes.getD i Node.default).trans.length then 1 else 0) + 2
        + (b.nodes.getD i Node.default).trans.length
        + b.strideD i * (b.nodes.getD i Node.default).targets.length) := by
  refine ⟨?_, ?_, ?_⟩
  · intro b p h0 hw
    have hinv := insertLoop_inv p b.nodes 0 0 [] h0 (wfTargets_all b hw)
    simp only [TrieBuilder.insert, TrieBuilder.terminal]
    rw [getD_set_self hinv.1]
    rfl
  · intro b p h0 hw hnd
    have hinv := insertLoop_inv p b.nodes 0 0 [] h0 (wfTargets_all b hw)
    have hseq : (insertLoop b.nodes 0 0 [] p).2.2 = [] := insertLoop_seq_nodigit p hnd b.nodes 0 0 []
    simp only [TrieBuilder.insert, TrieBuilder.terminal]
    rw [getD_set_self hinv.1]
    simp [hseq, findOffset_nil]
  · intro b i r h hsome
    obtain ⟨h1, _, _, _, _, h6, _⟩ := encodeNodeAt_header_facts b i r h
    refine ⟨by rw [h1, hsome], ?_⟩
    rw [h6, if_pos hsome]

/-- Witness for `c5_header_encoding`: the 31-transition node of `b31` is
encoded in the sentinel form — header byte 63 (stride 1, low five bits 31),
followed by the true-count byte 31. -/
theorem c5_header_encoding_witness :
    b31.encodeNodeAt 1
      = some ([63, 31] ++ (List.range 31).map (fun k => 100 + k) ++ List.replicate 31 255) ∧
    (([63, 31] ++ (List.range 31).map (fun k => 100 + k)
        ++ List.replicate 31 255).headD 0).testBit 7
      = (b31.nodes.getD 1 Node.default).levels.isSome ∧
    ([63, 31] ++ (List.range 31).map (fun k => 100 + k) ++ List.replicate 31 255).getD 1 0
      = (b31.nodes.getD 1 Node.default).trans.length := by
  refine ⟨by decide, ?_, ?_⟩
  · exact (c5_header_encoding b31 1 _ (by decide)).1
  · exact (c5_header_encoding b31 1 _ (by decide)).2.2.2.2.2.2 (by decide)

/-- Witness for `c10_ref_always_some`: inserting the digitless pattern `"a"`
into the fresh builder gives the terminal node the reference `(0, 0)`. -/
theorem c10_ref_always_some_witness :
    0 < TrieBuilder.new.nodes.length ∧ wfTargets TrieBuilder.new ∧
    (∀ c ∈ [97], isDigit c = false) ∧
    ((TrieBuilder.new.insert [97]).nodes.getD (TrieBuilder.new.terminal [97])
        Node.default).levels = some (0, 0) :=
  ⟨by decide, by decide, by decide,
    c10_ref_always_some.2.1 TrieBuilder.new [97] (by decide) (by decide) (by decide)⟩

/-! ## C1: stride soundness -/

lemma how_many_bytes_some_inRange {x : Int} {s : Nat}
    (h : how_many_bytes x = some s) : inRange x s ∧ 1 ≤ s ∧ s ≤ 3 := by
  unfold how_many_bytes at h
  unfold inRange
  split at h
  · injection h with h
    subst h
    norm_num
    omega
  · split at h
    · injection h with h
      subst h
      norm_num
      omega
    · split at h
      · injection h with h
        subst h
        norm_num
        omega
      · cases h

lemma inRange_mono_stride {x : Int} {s s' : Nat} (h1 : 1 ≤ s) (hss : s ≤ s')
    (h : inRange x s) : inRange x s' := by
  obtain ⟨ha, hb⟩ := h
  have hpow : (2 : Int) ^ (8 * s - 1) ≤ 2 ^ (8 * s' - 1) :=
    pow_le_pow_right₀ (by omega) (by omega)
  exact ⟨le_trans (by omega) ha, lt_of_lt_of_le hb hpow⟩

lemma inRange_between {x y : Int} {s : Nat}
    (hbetween : (0 ≤ y ∧ y ≤ x) ∨ (x ≤ y ∧ y ≤ 0)) (h : inRange x s) : inRange y s := by
  obtain ⟨ha, hb⟩ := h
  have hpos : (0 : Int) < 2 ^ (8 * s - 1) := by positivity
  rcases hbetween with ⟨h1, h2⟩ | ⟨h1, h2⟩ <;> exact ⟨by omega, by omega⟩

lemma foldl_max_acc_le (l : List Nat) : ∀ acc, acc ≤ l.foldl max acc := by
  induction l with
  | nil => intro acc; simp
  | cons a l ih =>
    intro acc
    simp only [List.foldl_cons]
    exact le_trans (le_max_left _ _) (ih _)

lemma foldl_max_ge {l : List Nat} {v : Nat} (hv : v ∈ l) :
    ∀ acc, v ≤ l.foldl max acc := by
  induction l with
  | nil => cases hv
  | cons a l ih =>
    intro acc
    rcases List.mem_cons.1 hv with rfl | hv'
    · simp only [List.foldl_cons]
      exact le_trans (le_max_right _ _) (foldl_max_acc_le l _)
    · exact ih hv' _

lemma omap_eq_map {f : α → Option β} {g : α → β} :
    ∀ {l : List α}, (∀ a ∈ l, f a = some (g a)) → omap f l = some (l.map g) := by
  intro l
  induction l with
  | nil => intro _; rfl
  | cons a l ih =>
    intro hall
    simp only [omap, hall a (by simp), ih (fun x hx => hall x (by simp [hx])), List.map_cons]

lemma omap_getD {f : α → Option β} {u : α} {v : β} :
    ∀ {l : List α} {bs : List β}, omap f l = some bs →
      ∀ i < l.length, f (l.getD i u) = some (bs.getD i v) := by
  intro l
  induction l with
  | nil => intro bs _ i hi; simp at hi
  | cons a l ih =>
    intro bs h i hi
    simp only [omap] at h
    cases hfa : f a with
    | none => simp [hfa] at h
    | some b =>
      rw [hfa] at h
      cases hl : omap f l with
      | none => simp [hl] at h
      | some cs =>
        rw [hl] at h
        simp at h
        subst h
        cases i with
        | zero => simpa using hfa
        | succ j => exact ih hl j (by simpa using hi)

lemma getD_range {n i d : Nat} (h : i < n) : (List.range n).getD i d = i := by
  simp [List.getD, List.getElem?_range h]

/-- Under a successful pass 2, the computed stride list agrees with the
defaulted strides, and every per-target `how_many_bytes` succeeds. -/
lemma strides_some_facts {b : TrieBuilder} {ss : List Nat}
    (hss : b.strides = some ss) :
    ∀ i < b.nodes.length,
      ss.getD i 1 = b.strideD i ∧
      ∀ t ∈ (b.nodes.getD i Node.default).targets,
        how_many_bytes ((b.est t : Int) - b.est i)
          = some (((how_many_bytes ((b.est t : Int) - b.est i)).getD 3)) := by
  intro i hi
  have hgi := omap_getD (u := 0) (v := 1) hss i (by simpa using hi)
  rw [getD_range hi] at hgi
  -- the inner omap over the targets succeeded
  cases hin : omap (fun t => how_many_bytes ((b.est t : Int) - b.est i))
      (b.nodes.getD i Node.default).targets with
  | none => rw [hin] at hgi; cases hgi
  | some ws =>
    have hall : ∀ t ∈ (b.nodes.getD i Node.default).targets,
        how_many_bytes ((b.est t : Int) - b.est i)
          = some (((how_many_bytes ((b.est t : Int) - b.est i)).getD 3)) := by
      intro t ht
      cases hhb : how_many_bytes ((b.est t : Int) - b.est i) with
      | none =>
        have : omap (fun t => how_many_bytes ((b.est t : Int) - b.est i))
            (b.nodes.getD i Node.default).targets = none :=
          omap_eq_none_iff.2 ⟨t, ht, hhb⟩
        rw [this] at hin
        cases hin
      | some s => simp [hhb]
    refine ⟨?_, hall⟩
    have hmap := omap_eq_map hall
    rw [hin] at hgi
    rw [hmap] at hin
    injection hin with hin
    rw [← hin] at hgi
    simp only [Option.map_some'] at hgi
    injection hgi with hgi
    unfold TrieBuilder.strideD
    exact hgi.symm

lemma sizeWith_mono {s s' : Nat} (h : s ≤ s') (nd : Node) :
    sizeWith s nd ≤ sizeWith s' nd := by
  unfold sizeWith
  have : (1 + s) * nd.trans.length ≤ (1 + s') * nd.trans.length :=
    Nat.mul_le_mul_right _ (by omega)
  omega

lemma strideD_le_3 (b : TrieBuilder) (i : Nat) : b.strideD i ≤ 3 :=
  (strideD_bounds b i).2

/-- Pass-1 estimates dominate the true addresses. -/
lemma addr_le_est (b : TrieBuilder) (i : Nat) : b.addr i ≤ b.est i := by
  unfold TrieBuilder.addr TrieBuilder.est
  have : ∀ j ∈ Finset.range i,
      sizeWith (b.strideD j) (b.nodes.getD j Node.default)
        ≤ sizeWith 3 (b.nodes.getD j Node.default) :=
    fun j _ => sizeWith_mono (strideD_le_3 b j) _
  exact Nat.add_le_add_left (Finset.sum_le_sum this) _

/-- Address differences in the same direction: for `i ≤ t`, both deltas are
the sums of the per-node sizes over `[i, t)`, so the true delta is between 0
and the estimated delta; symmetrically for `t ≤ i`. -/
lemma addr_delta_between (b : TrieBuilder) (i t : Nat) :
    (0 ≤ (b.addr t : Int) - b.addr i ∧ (b.addr t : Int) - b.addr i ≤ (b.est t : Int) - b.est i) ∨
    ((b.est t : Int) - b.est i ≤ (b.addr t : Int) - b.addr i ∧ (b.addr t : Int) - b.addr i ≤ 0) := by
  rcases Nat.le_total i t with hit | hti
  · left
    unfold TrieBuilder.addr TrieBuilder.est
    have hs : ∀ m : Nat → Nat,
        (∑ j ∈ Finset.range t, m j) = (∑ j ∈ Finset.range i, m j) + ∑ j ∈ Finset.Ico i t, m j := by
      intro m
      simp only [Finset.range_eq_Ico]
      exact (Finset.sum_Ico_consecutive m (Nat.zero_le i) hit).symm
    rw [hs (fun j => sizeWith (b.strideD j) (b.nodes.getD j Node.default)),
        hs (fun j => sizeWith 3 (b.nodes.getD j Node.default))]
    have hle : (∑ j ∈ Finset.Ico i t, sizeWith (b.strideD j) (b.nodes.getD j Node.default))
        ≤ ∑ j ∈ Finset.Ico i t, sizeWith 3 (b.nodes.getD j Node.default) :=
      Finset.sum_le_sum (fun j _ => sizeWith_mono (strideD_le_3 b j) _)
    omega
  · right
    unfold TrieBuilder.addr TrieBuilder.est
    have hs : ∀ m : Nat → Nat,
        (∑ j ∈ Finset.range i, m j) = (∑ j ∈ Finset.range t, m j) + ∑ j ∈ Finset.Ico t i, m j := by
      intro m
      simp only [Finset.range_eq_Ico]
      exact (Finset.sum_Ico_consecutive m (Nat.zero_le t) hti).symm
    rw [hs (fun j => sizeWith (b.strideD j) (b.nodes.getD j Node.default)),
        hs (fun j => sizeWith 3 (b.nodes.getD j Node.default))]
    have hle : (∑ j ∈ Finset.Ico t i, sizeWith (b.strideD j) (b.nodes.getD j Node.default))
        ≤ ∑ j ∈ Finset.Ico t i, sizeWith 3 (b.nodes.getD j Node.default) :=
      Finset.sum_le_sum (fun j _ => sizeWith_mono (strideD_le_3 b j) _)
    omega

/-- The true delta of every target of node `i` lies in the signed range of
the chosen stride (helper shared by C1 and C4). -/
lemma true_delta_fits {b : TrieBuilder} {ss : List Nat} (hss : b.strides = some ss)
    {i : Nat} (hi : i < b.nodes.length) {t : Nat}
    (ht : t ∈ (b.nodes.getD i Node.default).targets) :
    inRange ((b.addr t : Int) - b.addr i) (b.strideD i) := by
  obtain ⟨-, hall⟩ := strides_some_facts hss i hi
  have hhb := hall t ht
  obtain ⟨hr, hs1, hs3⟩ := how_many_bytes_some_inRange hhb
  have hle : (how_many_bytes ((b.est t : Int) - b.est i)).getD 3 ≤ b.strideD i := by
    apply foldl_max_ge
    exact List.mem_map.2 ⟨t, ht, rfl⟩
  have hest : inRange ((b.est t : Int) - b.est i) (b.strideD i) :=
    inRange_mono_stride hs1 hle hr
  apply inRange_between _ hest
  rcases addr_delta_between b i t with ⟨h1, h2⟩ | ⟨h1, h2⟩
  · exact Or.inl ⟨h1, h2⟩
  · exact Or.inr ⟨h1, h2⟩

/-- `to_be_bytes` succeeds whenever the delta is in range of a stride 1–3. -/
lemma to_be_bytes_isSome {x : Int} {s : Nat} (hs1 : 1 ≤ s) (hs3 : s ≤ 3)
    (h : inRange x s) : (to_be_bytes x s).isSome = true := by
  obtain ⟨ha, hb⟩ := h
  unfold to_be_bytes
  interval_cases s
  · rw [if_pos rfl, if_pos (by norm_num at ha hb ⊢; omega)]
    rfl
  · rw [if_neg (by omega), if_pos rfl, if_pos (by norm_num at ha hb ⊢; omega)]
    rfl
  · rw [if_neg (by omega), if_neg (by omega), if_pos rfl]
    rfl

/-- C1: under a successful pass 2 (`strides = some ss`), pass-1 estimates are
upper bounds on every node's true address, and for every node and every one
of its targets the true serialized delta fits in the stride chosen from the
pass-1 estimated deltas, so the `i8`/`i16` conversions of the final
serialization never fail. -/
theorem c1_stride_soundness (b : TrieBuilder) (ss : List Nat)
    (hss : b.strides = some ss) :
    (∀ i, b.addr i ≤ b.est i) ∧
    (∀ i < b.nodes.length, ∀ t ∈ (b.nodes.getD i Node.default).targets,
      inRange ((b.addr t : Int) - b.addr i) (ss.getD i 1) ∧
      (to_be_bytes ((b.addr t : Int) - b.addr i) (ss.getD i 1)).isSome = true) := by
  refine ⟨addr_le_est b, ?_⟩
  intro i hi t ht
  obtain ⟨hgd, -⟩ := strides_some_facts hss i hi
  rw [hgd]
  have hfit := true_delta_fits hss hi ht
  obtain ⟨hs1, hs3⟩ := strideD_bounds b i
  exact ⟨hfit, to_be_bytes_isSome hs1 hs3 hfit⟩

/-- Witness for `c1_stride_soundness` at the concrete builder `b31`, whose
pass 2 succeeds with strides `[1, 1]`. -/
theorem c1_stride_soundness_witness :
    b31.strides = some [1, 1] ∧
    ((∀ i, b31.addr i ≤ b31.est i) ∧
      (∀ i < b31.nodes.length, ∀ t ∈ (b31.nodes.getD i Node.default).targets,
        inRange ((b31.addr t : Int) - b31.addr i) (([1, 1] : List Nat).getD i 1) ∧
        (to_be_bytes ((b31.addr t : Int) - b31.addr i)
          (([1, 1] : List Nat).getD i 1)).isSome = true)) :=
  ⟨by decide, c1_stride_soundness b31 [1, 1] (by decide)⟩

/-! ## C4: exact failure conditions of the encoder -/

lemma how_many_bytes_eq_none_iff (x : Int) :
    how_many_bytes x = none ↔ ¬(-(2 ^ 23) ≤ x ∧ x < 2 ^ 23) := by
  unfold how_many_bytes
  split
  · constructor
    · intro h; cases h
    · intro hc
      exfalso
      apply hc
      norm_num at *
      omega
  · split
    · constructor
      · intro h; cases h
      · intro hc
        exfalso
        apply hc
        norm_num at *
        omega
    · split
      · constructor
        · intro h; cases h
        · intro hc; exact absurd (by assumption) hc
      · simp_all

lemma u32be_eq_none_iff (n : Nat) : u32be n = none ↔ 2 ^ 32 ≤ n := by
  unfold u32be
  split
  · constructor
    · intro h; cases h
    · omega
  · simp
    omega

lemma levelByte_eq_none_iff (p : Nat × Nat) :
    levelByte p = none ↔ (24 < p.1 ∨ 10 ≤ p.2) := by
  unfold levelByte
  split
  · constructor
    · intro h; cases h
    · omega
  · simp
    omega

lemma extraBytes_eq_none_iff (c : Nat) : extraBytes c = none ↔ 255 < c := by
  unfold extraBytes
  by_cases h31 : 31 ≤ c
  · rw [if_pos h31]
    split
    · constructor
      · intro h; cases h
      · omega
    · simp
      omega
  · rw [if_neg h31]
    constructor
    · intro h; cases h
    · omega

lemma refBytes_eq_none_iff (lv : Option (Nat × Nat)) :
    refBytes lv = none ↔ ∃ o l, lv = some (o, l) ∧ (4096 ≤ 4 + o ∨ 16 ≤ l) := by
  cases lv with
  | none =>
    simp only [refBytes]
    constructor
    · intro h; cases h
    · rintro ⟨o, l, h, -⟩; cases h
  | some p =>
    obtain ⟨o, l⟩ := p
    simp only [refBytes]
    split
    · constructor
      · intro h; cases h
      · rintro ⟨o', l', h, hbad⟩
        injection h with h
        cases h
        omega
    · constructor
      · intro _
        exact ⟨o, l, rfl, by omega⟩
      · intro _; rfl

lemma bang_and_decide_iff (x : Int) :
    (!(decide (-(2 ^ 23) ≤ x) && decide (x < 2 ^ 23))) = true
      ↔ ¬(-(2 ^ 23) ≤ x ∧ x < 2 ^ 23) := by
  cases h1 : decide (-(2 ^ 23) ≤ x) <;> cases h2 : decide (x < 2 ^ 23) <;> simp_all

lemma badDelta_iff_strides_none (b : TrieBuilder) :
    b.badDelta = true ↔ b.strides = none := by
  unfold TrieBuilder.badDelta TrieBuilder.strides
  rw [omap_eq_none_iff]
  simp only [List.any_eq_true, List.mem_range]
  constructor
  · rintro ⟨i, hi, t, ht, hbad⟩
    refine ⟨i, hi, ?_⟩
    have hnone : how_many_bytes ((b.est t : Int) - b.est i) = none := by
      rw [how_many_bytes_eq_none_iff]
      exact (bang_and_decide_iff _).1 hbad
    rw [Option.map_eq_none', omap_eq_none_iff]
    exact ⟨t, ht, hnone⟩
  · rintro ⟨i, hi, hnone⟩
    rw [Option.map_eq_none', omap_eq_none_iff] at hnone
    obtain ⟨t, ht, hnone⟩ := hnone
    rw [how_many_bytes_eq_none_iff] at hnone
    exact ⟨i, hi, t, ht, (bang_and_decide_iff _).2 hnone⟩

lemma badTrans_iff (b : TrieBuilder) :
    b.badTrans = true ↔
      ∃ i < b.nodes.length, 255 < (b.nodes.getD i Node.default).trans.length := by
  unfold TrieBuilder.badTrans
  simp [List.any_eq_true, List.mem_range]

lemma badLevels_iff (b : TrieBuilder) :
    b.badLevels = true ↔ ∃ p ∈ b.levels, 24 < p.1 ∨ 10 ≤ p.2 := by
  unfold TrieBuilder.badLevels
  simp [List.any_eq_true]

lemma badRef_iff (b : TrieBuilder) :
    b.badRef = true ↔
      ∃ i < b.nodes.length, ∃ o l, (b.nodes.getD i Node.default).levels = some (o, l) ∧
        (4096 ≤ 4 + o ∨ 16 ≤ l) := by
  unfold TrieBuilder.badRef
  simp only [List.any_eq_true, List.mem_range]
  constructor
  · rintro ⟨i, hi, hbad⟩
    refine ⟨i, hi, ?_⟩
    revert hbad
    cases hlv : (b.nodes.getD i Node.default).levels with
    | none => intro hbad; cases hbad
    | some p =>
      obtain ⟨o, l⟩ := p
      intro hbad
      simp only [Bool.or_eq_true, decide_eq_true_eq] at hbad
      exact ⟨o, l, rfl, hbad⟩
  · rintro ⟨i, hi, o, l, hlv, hbad⟩
    refine ⟨i, hi, ?_⟩
    rw [hlv]
    simp only [Bool.or_eq_true, decide_eq_true_eq]
    exact hbad

lemma badRef_false_at {b : TrieBuilder} (h : b.badRef = false) {i : Nat}
    (hi : i < b.nodes.length) : refBytes (b.nodes.getD i Node.default).levels ≠ none := by
  intro hcon
  rw [refBytes_eq_none_iff] at hcon
  obtain ⟨o, l, hlv, hbad⟩ := hcon
  have : b.badRef = true := (badRef_iff b).2 ⟨i, hi, o, l, hlv, hbad⟩
  rw [h] at this
  cases this

/-- Given a successful pass 2, a node record fails to encode iff the node
breaks the transition-count or reference limits. -/
lemma encodeNodeAt_eq_none_iff {b : TrieBuilder} {ss : List Nat}
    (hss : b.strides = some ss) {i : Nat} (hi : i < b.nodes.length) :
    b.encodeNodeAt i = none ↔
      (255 < (b.nodes.getD i Node.default).trans.length ∨
        refBytes (b.nodes.getD i Node.default).levels = none) := by
  constructor
  · intro h
    simp only [TrieBuilder.encodeNodeAt] at h
    cases hex : extraBytes (b.nodes.getD i Node.default).trans.length with
    | none =>
      left
      exact (extraBytes_eq_none_iff _).1 hex
    | some ex =>
      rw [hex] at h
      simp only [Option.some_bind] at h
      cases hrf : refBytes (b.nodes.getD i Node.default).levels with
      | none => right; rfl
      | some rf =>
        rw [hrf] at h
        simp only [Option.some_bind] at h
        cases hds : omap (fun t => to_be_bytes ((b.addr t : Int) - b.addr i) (b.strideD i))
            (b.nodes.getD i Node.default).targets with
        | none =>
          exfalso
          rw [omap_eq_none_iff] at hds
          obtain ⟨t, ht, hnone⟩ := hds
          have hfit := true_delta_fits hss hi ht
          obtain ⟨hs1, hs3⟩ := strideD_bounds b i
          have := to_be_bytes_isSome hs1 hs3 hfit
          rw [hnone] at this
          cases this
        | some ds =>
          rw [hds] at h
          simp only [Option.some_bind] at h
          cases h
  · intro h
    simp only [TrieBuilder.encodeNodeAt]
    rcases h with h | h
    · rw [(extraBytes_eq_none_iff _).2 h]
      rfl
    · rw [h]
      cases extraBytes (b.nodes.getD i Node.default).trans.length <;> rfl

/-- C4 (amended): `insert` and `compress` are total, and `encode` aborts iff
some pass-1 estimated target delta falls outside the 3-byte signed range,
some node has more than 255 transitions, some priority-table entry has
gap > 24 or priority ≥ 10, some priority reference has biased offset ≥ 4096
or length ≥ 16, **or the root's final address does not fit in 32 bits** (the
`u32::try_from` on the root address — a failure condition the claim omits). -/
theorem c4_encode_failure_characterization (b : TrieBuilder) :
    b.encode = none ↔
      (b.badDelta = true ∨ b.badTrans = true ∨ b.badLevels = true ∨ b.badRef = true ∨
        2 ^ 32 ≤ b.addr b.root) := by
  cases hss : b.strides with
  | none =>
    simp only [TrieBuilder.encode, hss, Option.none_bind]
    constructor
    · intro _
      exact Or.inl ((badDelta_iff_strides_none b).2 hss)
    · intro _; trivial
  | some ss =>
    have hnd : ¬ b.badDelta = true := by
      rw [badDelta_iff_strides_none, hss]
      simp
    simp only [TrieBuilder.encode, hss, Option.some_bind]
    cases h32 : u32be (b.addr b.root) with
    | none =>
      simp only [Option.none_bind]
      rw [u32be_eq_none_iff] at h32
      constructor
      · intro _
        exact Or.inr (Or.inr (Or.inr (Or.inr h32)))
      · intro _; trivial
    | some rb =>
      simp only [Option.some_bind]
      have h32' : ¬ 2 ^ 32 ≤ b.addr b.root := by
        intro hc
        rw [(u32be_eq_none_iff _).2 hc] at h32
        cases h32
      cases hlv : omap levelByte b.levels with
      | none =>
        simp only [Option.none_bind]
        rw [omap_eq_none_iff] at hlv
        obtain ⟨p, hp, hnone⟩ := hlv
        rw [levelByte_eq_none_iff] at hnone
        constructor
        · intro _
          exact Or.inr (Or.inr (Or.inl ((badLevels_iff b).2 ⟨p, hp, hnone⟩)))
        · intro _; trivial
      | some lvB =>
        simp only [Option.some_bind]
        have hlv' : ¬ b.badLevels = true := by
          rw [badLevels_iff]
          rintro ⟨p, hp, hbad⟩
          have : levelByte p = none := (levelByte_eq_none_iff p).2 hbad
          have : omap levelByte b.levels = none := omap_eq_none_iff.2 ⟨p, hp, this⟩
          rw [this] at hlv
          cases hlv
        cases hrecs : omap b.encodeNodeAt (List.range b.nodes.length) with
        | none =>
          simp only [Option.none_bind]
          rw [omap_eq_none_iff] at hrecs
          obtain ⟨i, hi, hnone⟩ := hrecs
          rw [List.mem_range] at hi
          rw [encodeNodeAt_eq_none_iff hss hi] at hnone
          constructor
          · intro _
            rcases hnone with h | h
            · exact Or.inr (Or.inl ((badTrans_iff b).2 ⟨i, hi, h⟩))
            · rw [refBytes_eq_none_iff] at h
              obtain ⟨o, l, hlv2, hbad⟩ := h
              exact Or.inr (Or.inr (Or.inr (Or.inl ((badRef_iff b).2 ⟨i, hi, o, l, hlv2, hbad⟩))))
          · intro _; trivial
        | some recs =>
          simp only [Option.some_bind]
          constructor
          · intro hcon; cases hcon
          · rintro (h | h | h | h | h)
            · exact absurd h hnd
            · rw [badTrans_iff] at h
              obtain ⟨i, hi, hbad⟩ := h
              have : b.encodeNodeAt i = none :=
                (encodeNodeAt_eq_none_iff hss hi).2 (Or.inl hbad)
              have : omap b.encodeNodeAt (List.range b.nodes.length) = none :=
                omap_eq_none_iff.2 ⟨i, List.mem_range.2 hi, this⟩
              rw [this] at hrecs
              cases hrecs
            · exact absurd h hlv'
            · rw [badRef_iff] at h
              obtain ⟨i, hi, o, l, hlv2, hbad⟩ := h
              have : b.encodeNodeAt i = none :=
                (encodeNodeAt_eq_none_iff hss hi).2
                  (Or.inr ((refBytes_eq_none_iff _).2 ⟨o, l, hlv2, hbad⟩))
              have : omap b.encodeNodeAt (List.range b.nodes.length) = none :=
                omap_eq_none_iff.2 ⟨i, List.mem_range.2 hi, this⟩
              rw [this] at hrecs
              cases hrecs
            · exact absurd h h32'

lemma any_replicate (n : Nat) (a : α) (p : α → Bool) :
    (List.replicate n a).any p = ((n != 0) && p a) := by
  induction n with
  | zero => rfl
  | succ m ih =>
    simp only [List.replicate_succ, List.any_cons, ih]
    cases p a <;> cases m != 0 <;> simp

lemma addr_zero (b : TrieBuilder) : b.addr 0 = 4 + b.levels.length := by
  unfold TrieBuilder.addr TrieBuilder.start
  rw [Finset.range_zero, Finset.sum_empty, Nat.add_zero]

lemma encode_eq_none_of_u32be {b : TrieBuilder} {ss : List Nat}
    (hss : b.strides = some ss) (hu : u32be (b.addr b.root) = none) :
    b.encode = none := by
  simp only [TrieBuilder.encode, hss, Option.some_bind, hu, Option.none_bind]

/-- C4, counterexample: on `bigBuilder` — one default node, priority table of
2³² copies of `(0, 0)` — `encode` aborts (the root address `4 + 2³²` fails
the `u32` conversion) although none of the claim's four size-limit
conditions holds: there is no target delta at all, no node has more than 255
transitions, every table entry is `(0, 0)`, and no node carries a priority
reference. -/
theorem c4_counterexample :
    bigBuilder.encode = none ∧
    bigBuilder.badDelta = false ∧ bigBuilder.badTrans = false ∧
    bigBuilder.badLevels = false ∧ bigBuilder.badRef = false := by
  have hlen : bigBuilder.levels.length = 2 ^ 32 := List.length_replicate _ _
  have hroot : bigBuilder.root = 0 := rfl
  have haddr : bigBuilder.addr bigBuilder.root = 4 + 2 ^ 32 := by
    rw [hroot, addr_zero, hlen]
  refine ⟨?_, by decide, by decide, ?_, by decide⟩
  · have hss : bigBuilder.strides = some [1] := by decide
    have hu : u32be (bigBuilder.addr bigBuilder.root) = none := by
      rw [haddr]
      unfold u32be
      rw [if_neg (by omega)]
    exact encode_eq_none_of_u32be hss hu
  · show (List.replicate (2 ^ 32) ((0 : Nat), (0 : Nat))).any _ = false
    rw [any_replicate]
    rfl

/-! ## Subtree shapes: fuel irrelevance and unfolding -/

lemma inc_global_of_rawInv {b : TrieBuilder} (h : RawInv b) :
    ∀ i, ∀ t ∈ (b.nodes.getD i Node.default).targets, i < t ∧ t < b.nodes.length := by
  intro i t ht
  by_cases hi : i < b.nodes.length
  · exact h i hi t ht
  · rw [List.getD_eq_default _ _ (by omega)] at ht
    simp [Node.default] at ht

lemma dec_global_of_bounded {B : List Node}
    (h : ∀ k < B.length, ∀ t ∈ (B.getD k Node.default).targets, t < k) :
    ∀ k, ∀ t ∈ (B.getD k Node.default).targets, t < k := by
  intro k t ht
  by_cases hk : k < B.length
  · exact h k hk t ht
  · rw [List.getD_eq_default _ _ (by omega)] at ht
    simp [Node.default] at ht

lemma treeOfAux_inc_irrel {nodes : List Node}
    (hInc : ∀ i, ∀ t ∈ (nodes.getD i Node.default).targets, i < t ∧ t < nodes.length) :
    ∀ f₁ f₂ n, nodes.length - n < f₁ → nodes.length - n < f₂ →
      treeOfAux nodes f₁ n = treeOfAux nodes f₂ n := by
  intro f₁
  induction f₁ with
  | zero => intro f₂ n h1 _; omega
  | succ g ih =>
    intro f₂ n h1 h2
    cases f₂ with
    | zero => omega
    | succ h =>
      simp only [treeOfAux]
      congr 1
      apply List.map_congr_left
      intro t ht
      obtain ⟨hnt, htl⟩ := hInc n t ht
      exact ih h t (by omega) (by omega)

lemma treeOfAux_dec_irrel {B : List Node}
    (hDec : ∀ k, ∀ t ∈ (B.getD k Node.default).targets, t < k) :
    ∀ f₁ f₂ k, k < f₁ → k < f₂ → treeOfAux B f₁ k = treeOfAux B f₂ k := by
  intro f₁
  induction f₁ with
  | zero => intro f₂ k h1 _; omega
  | succ g ih =>
    intro f₂ k h1 h2
    cases f₂ with
    | zero => omega
    | succ h =>
      simp only [treeOfAux]
      congr 1
      apply List.map_congr_left
      intro t ht
      have htk := hDec k t ht
      exact ih h t (by omega) (by omega)

lemma treeAt_unfold_inc {nodes : List Node}
    (hInc : ∀ i, ∀ t ∈ (nodes.getD i Node.default).targets, i < t ∧ t < nodes.length)
    (n : Nat) :
    treeAt nodes n = STree.mk (nodes.getD n Node.default).trans
      ((nodes.getD n Node.default).targets.map (treeAt nodes))
      (nodes.getD n Node.default).levels := by
  unfold treeAt
  simp only [treeOfAux]
  congr 1
  apply List.map_congr_left
  intro t ht
  obtain ⟨hnt, htl⟩ := hInc n t ht
  exact treeOfAux_inc_irrel hInc nodes.length (nodes.length + 1) t (by omega) (by omega)

lemma newTree_unfold {B : List Node}
    (hDec : ∀ k, ∀ t ∈ (B.getD k Node.default).targets, t < k) (k : Nat) :
    treeOfAux B (k + 1) k = STree.mk (B.getD k Node.default).trans
      ((B.getD k Node.default).targets.map (fun t => treeOfAux B (t + 1) t))
      (B.getD k Node.default).levels := by
  simp only [treeOfAux]
  congr 1
  apply List.map_congr_left
  intro t ht
  have htk := hDec k t ht
  exact treeOfAux_dec_irrel hDec k (t + 1) t htk (by omega)

lemma treeOfAux_append_stable {B ext : List Node}
    (hDec : ∀ k, ∀ t ∈ (B.getD k Node.default).targets, t < k) :
    ∀ f k, k < B.length → treeOfAux (B ++ ext) f k = treeOfAux B f k := by
  intro f
  induction f with
  | zero => intro k _; rfl
  | succ g ih =>
    intro k hk
    simp only [treeOfAux, getD_append_left hk]
    congr 1
    apply List.map_congr_left
    intro t ht
    exact ih t (lt_trans (hDec k t ht) hk)

lemma STree_mk_inj {a b : List Nat} {c d : List STree} {e f : Option (Nat × Nat)}
    (h : STree.mk a c e = STree.mk b d f) : a = b ∧ c = d ∧ e = f := by
  cases h
  exact ⟨rfl, rfl, rfl⟩

lemma map_eq_map_inj {f : α → γ} :
    ∀ {l₁ l₂ : List α}, l₁.map f = l₂.map f →
      (∀ a ∈ l₁, ∀ b ∈ l₂, f a = f b → a = b) → l₁ = l₂ := by
  intro l₁
  induction l₁ with
  | nil =>
    intro l₂ h _
    cases l₂ with
    | nil => rfl
    | cons b l₂ => cases h
  | cons a l₁ ih =>
    intro l₂ h hinj
    cases l₂ with
    | nil => cases h
    | cons b l₂ =>
      simp only [List.map_cons, List.cons.injEq] at h
      have hab : a = b := hinj a (by simp) b (by simp) h.1
      rw [hab, ih h.2 (fun x hx y hy => hinj x (by simp [hx]) y (by simp [hy]))]

lemma le_sizeL_of_mem {t : STree} : ∀ {l : List STree}, t ∈ l → t.size ≤ sizeL l := by
  intro l
  induction l with
  | nil => intro h; cases h
  | cons s l ih =>
    intro h
    rcases List.mem_cons.1 h with rfl | h'
    · simp [sizeL]
    · have := ih h'
      simp only [sizeL]
      omega

lemma size_mk (tr : List Nat) (ch : List STree) (lv : Option (Nat × Nat)) :
    (STree.mk tr ch lv).size = 1 + sizeL ch := by
  simp [STree.size]

lemma size_pos (t : STree) : 0 < t.size := by
  cases t with
  | mk tr ch lv => simp [STree.size]

/-- A child subtree is strictly smaller than its parent (increasing-table
form). -/
lemma child_tree_size_lt {nodes : List Node}
    (hInc : ∀ i, ∀ t ∈ (nodes.getD i Node.default).targets, i < t ∧ t < nodes.length)
    {n t : Nat} (ht : t ∈ (nodes.getD n Node.default).targets) :
    STree.size (treeAt nodes t) < STree.size (treeAt nodes n) := by
  conv_rhs => rw [treeAt_unfold_inc hInc n]
  rw [size_mk]
  have : treeAt nodes t ∈ (nodes.getD n Node.default).targets.map (treeAt nodes) :=
    List.mem_map.2 ⟨t, ht, rfl⟩
  have := le_sizeL_of_mem this
  omega

lemma assocFind_none_iff {map : List (Node × Nat)} {x : Node} :
    assocFind map x = none ↔ ∀ p ∈ map, p.1 ≠ x := by
  unfold assocFind
  rw [Option.map_eq_none', List.find?_eq_none]
  constructor
  · intro h p hp
    have := h p hp
    simpa using this
  · intro h p hp
    simpa using h p hp

lemma assocFind_some_mem {map : List (Node × Nat)} {x : Node} {i : Nat}
    (h : assocFind map x = some i) : (x, i) ∈ map := by
  unfold assocFind at h
  cases hf : map.find? (fun p => p.1 == x) with
  | none => rw [hf] at h; cases h
  | some q =>
    rw [hf] at h
    injection h with h
    have hq := List.find?_some hf
    have hmem := List.mem_of_find?_eq_some hf
    simp only [beq_iff_eq] at hq
    obtain ⟨q1, q2⟩ := q
    simp only at hq h
    rwa [hq, h] at hmem

/-! ## The master simulation lemma for `compress` -/

lemma prefix_getD {l l' : List α} (h : l <+: l') {k : Nat} (hk : k < l.length) (d : α) :
    l'.getD k d = l.getD k d := by
  obtain ⟨ext, rfl⟩ := h
  exact getD_append_left hk

lemma prefix_tree_stable {B B' : List Node}
    (hDec : ∀ k, ∀ t ∈ (B.getD k Node.default).targets, t < k)
    (h : B <+: B') {k : Nat} (hk : k < B.length) (f : Nat) :
    treeOfAux B' f k = treeOfAux B f k := by
  obtain ⟨ext, rfl⟩ := h
  exact treeOfAux_append_stable hDec f k hk

lemma map_eq_of_pointwise {f : α → γ} {g : β → γ} {u : α} {v : β} :
    ∀ {l₁ : List α} {l₂ : List β}, l₁.length = l₂.length →
      (∀ j < l₁.length, f (l₁.getD j u) = g (l₂.getD j v)) →
      l₁.map f = l₂.map g := by
  intro l₁
  induction l₁ with
  | nil =>
    intro l₂ hlen _
    cases l₂ with
    | nil => rfl
    | cons b l₂ => cases hlen
  | cons a l₁ ih =>
    intro l₂ hlen hpt
    cases l₂ with
    | nil => cases hlen
    | cons b l₂ =>
      simp only [List.map_cons, List.cons.injEq]
      refine ⟨hpt 0 (by simp), ?_⟩
      apply ih (by simpa using hlen)
      intro j hj
      exact hpt (j + 1) (by simpa using hj)

lemma forall_mem_of_pointwise {P : α → Prop} {d : α} {l : List α}
    (h : ∀ j < l.length, P (l.getD j d)) : ∀ t ∈ l, P t := by
  intro t ht
  obtain ⟨j, hj, rfl⟩ := List.mem_iff_getElem.1 ht
  have := h j hj
  rwa [List.getD_eq_getElem l d hj] at this

/-- Unfolding `compressNodeF` at positive fuel in terms of `compressFold`. -/
lemma compressNodeF_succ_eq (nodes : List Node) (fuel n : Nat)
    (map : List (Node × Nat)) (new : List Node) :
    compressNodeF nodes (fuel + 1) n map new =
      match assocFind
          (compressFold nodes fuel (nodes.getD n Node.default).targets ([], map, new)).2.1
          ⟨(nodes.getD n Node.default).trans,
            (compressFold nodes fuel (nodes.getD n Node.default).targets ([], map, new)).1,
            (nodes.getD n Node.default).levels⟩ with
      | some i =>
        (i, (compressFold nodes fuel (nodes.getD n Node.default).targets ([], map, new)).2)
      | none =>
        ((compressFold nodes fuel (nodes.getD n Node.default).targets ([], map, new)).2.2.length,
          (⟨(nodes.getD n Node.default).trans,
              (compressFold nodes fuel (nodes.getD n Node.default).targets ([], map, new)).1,
              (nodes.getD n Node.default).levels⟩,
            (compressFold nodes fuel
              (nodes.getD n Node.default).targets ([], map, new)).2.2.length)
            :: (compressFold nodes fuel (nodes.getD n Node.default).targets ([], map, new)).2.1,
          (compressFold nodes fuel (nodes.getD n Node.default).targets ([], map, new)).2.2
            ++ [⟨(nodes.getD n Node.default).trans,
              (compressFold nodes fuel (nodes.getD n Node.default).targets ([], map, new)).1,
              (nodes.getD n Node.default).levels⟩]) := rfl

lemma compressFold_nil (nodes : List Node) (fuel : Nat)
    (acc : List Nat × List (Node × Nat) × List Node) :
    compressFold nodes fuel [] acc = acc := rfl

lemma compressFold_cons (nodes : List Node) (fuel t : Nat) (ts : List Nat)
    (acc : List Nat × List (Node × Nat) × List Node) :
    compressFold nodes fuel (t :: ts) acc =
      compressFold nodes fuel ts
        (acc.1 ++ [(compressNodeF nodes fuel t acc.2.1 acc.2.2).1],
          (compressNodeF nodes fuel t acc.2.1 acc.2.2).2.1,
          (compressNodeF nodes fuel t acc.2.1 acc.2.2).2.2) := rfl

/-- Specification of the fold over a target list, assuming the node-level
specification `H` at the same fuel. -/
lemma compressFold_spec (nodes : List Node)
    (fuel : Nat)
    (H : ∀ t m nw, t < nodes.length → nodes.length - t ≤ fuel → CInv nodes m nw →
      CSpec nodes t m nw (compressNodeF nodes fuel t m nw)) :
    ∀ (ts idxs : List Nat) (m : List (Node × Nat)) (nw : List Node),
      (∀ t ∈ ts, t < nodes.length ∧ nodes.length - t ≤ fuel) →
      CInv nodes m nw →
      (∀ p ∈ m, p ∈ (compressFold nodes fuel ts (idxs, m, nw)).2.1) ∧
      nw <+: (compressFold nodes fuel ts (idxs, m, nw)).2.2 ∧
      CInv nodes (compressFold nodes fuel ts (idxs, m, nw)).2.1
        (compressFold nodes fuel ts (idxs, m, nw)).2.2 ∧
      (∃ js : List Nat,
        (compressFold nodes fuel ts (idxs, m, nw)).1 = idxs ++ js ∧
        js.length = ts.length ∧
        ∀ j < ts.length,
          js.getD j 0 < (compressFold nodes fuel ts (idxs, m, nw)).2.2.length ∧
          treeOfAux (compressFold nodes fuel ts (idxs, m, nw)).2.2 (js.getD j 0 + 1) (js.getD j 0)
            = treeAt nodes (ts.getD j 0)) ∧
      (∀ k, nw.length ≤ k → k < (compressFold nodes fuel ts (idxs, m, nw)).2.2.length →
        ∃ t ∈ ts,
          STree.size (treeOfAux (compressFold nodes fuel ts (idxs, m, nw)).2.2 (k + 1) k)
            ≤ STree.size (treeAt nodes t)) := by
  intro ts
  induction ts with
  | nil =>
    intro idxs m nw _ hCI
    rw [compressFold_nil]
    refine ⟨fun p hp => hp, List.prefix_refl _, hCI, ⟨[], by simp, rfl, ?_⟩, ?_⟩
    · intro j hj
      exact absurd hj (by simp)
    · intro k h1 h2
      have hnn : (idxs, m, nw).2.2 = nw := rfl
      rw [hnn] at h2
      omega
  | cons t ts ih =>
    intro idxs m nw hts hCI
    rw [compressFold_cons]
    obtain ⟨ht1, ht2⟩ := hts t (by simp)
    have hr := H t m nw ht1 ht2 hCI
    set r := compressNodeF nodes fuel t m nw with hrdef
    obtain ⟨hrmap, hrpre, hrCI, hrlt, hrtree, hrsize, hrfresh⟩ := hr
    have hDecr : ∀ k, ∀ t' ∈ (r.2.2.getD k Node.default).targets, t' < k :=
      dec_global_of_bounded (fun k hk => hrCI.2.2.1 k hk)
    obtain ⟨hm2, hpre2, hCI2, ⟨js, hjs1, hjs2, hjs3⟩, hsize2⟩ :=
      ih (idxs ++ [r.1]) r.2.1 r.2.2 (fun u hu => hts u (by simp [hu])) hrCI
    refine ⟨?_, ?_, hCI2, ?_, ?_⟩
    · exact fun p hp => hm2 p (hrmap p hp)
    · exact hrpre.trans hpre2
    · refine ⟨r.1 :: js, ?_, by simpa using hjs2, ?_⟩
      · rw [hjs1]
        simp
      · intro j hj
        cases j with
        | zero =>
          simp only [List.getD_cons_zero]
          constructor
          · exact lt_of_lt_of_le hrlt hpre2.length_le
          · rw [prefix_tree_stable hDecr hpre2 hrlt _]
            exact hrtree
        | succ j' =>
          have := hjs3 j' (by simpa using hj)
          simpa using this
    · intro k h1 h2
      by_cases hk : k < r.2.2.length
      · refine ⟨t, by simp, ?_⟩
        rw [prefix_tree_stable hDecr hpre2 hk _]
        exact hrsize k h1 hk
      · obtain ⟨t', ht', hsz⟩ := hsize2 k (by omega) h2
        exact ⟨t', by simp [ht'], hsz⟩

/-- The master lemma: on a strictly-increasing (tree-shaped) table,
`compressNodeF` with sufficient fuel satisfies its specification. -/
lemma compressNodeF_spec (nodes : List Node)
    (hInc : ∀ i, ∀ t ∈ (nodes.getD i Node.default).targets, i < t ∧ t < nodes.length) :
    ∀ (fuel n : Nat) (map : List (Node × Nat)) (new : List Node),
      n < nodes.length → nodes.length - n ≤ fuel → CInv nodes map new →
      CSpec nodes n map new (compressNodeF nodes fuel n map new) := by
  intro fuel
  induction fuel with
  | zero =>
    intro n map new hn hf _
    omega
  | succ f ih =>
    intro n map new hn hf hCI
    have H : ∀ t m nw, t < nodes.length → nodes.length - t ≤ f → CInv nodes m nw →
        CSpec nodes t m nw (compressNodeF nodes f t m nw) :=
      fun t m nw h1 h2 h3 => ih t m nw h1 h2 h3
    have hts : ∀ t ∈ (nodes.getD n Node.default).targets,
        t < nodes.length ∧ nodes.length - t ≤ f := by
      intro t ht
      obtain ⟨h1, h2⟩ := hInc n t ht
      exact ⟨h2, by omega⟩
    obtain ⟨hm, hpre, hCI2, ⟨js, hjs1, hjs2, hjs3⟩, hsize⟩ :=
      compressFold_spec nodes f H (nodes.getD n Node.default).targets [] map new hts hCI
    rw [compressNodeF_succ_eq]
    set F := compressFold nodes f (nodes.getD n Node.default).targets ([], map, new) with hF
    have hF1 : F.1 = js := by
      rw [hjs1]
      simp
    set x : Node := ⟨(nodes.getD n Node.default).trans, F.1,
      (nodes.getD n Node.default).levels⟩ with hx
    obtain ⟨hCa, hCb, hCc, hCd, hCe⟩ := hCI2
    have hDecF : ∀ k, ∀ t' ∈ (F.2.2.getD k Node.default).targets, t' < k :=
      dec_global_of_bounded hCc
    have hjsmem : ∀ u ∈ js, u < F.2.2.length := by
      intro u hu
      obtain ⟨j, hj, hju⟩ := List.mem_iff_getElem.1 hu
      have h3 := (hjs3 j (by omega)).1
      rwa [List.getD_eq_getElem js 0 hj, hju] at h3
    have hmapeq : js.map (fun j => treeOfAux F.2.2 (j + 1) j)
        = (nodes.getD n Node.default).targets.map (treeAt nodes) := by
      apply map_eq_of_pointwise (u := 0) (v := 0) (by omega)
      intro j hj
      exact (hjs3 j (by omega)).2
    cases hfind : assocFind F.2.1 x with
    | some i =>
      have hmem := assocFind_some_mem hfind
      obtain ⟨hilt, hieq⟩ := hCa _ hmem
      show CSpec nodes n map new (i, F.2)
      have htree_i : treeOfAux F.2.2 (i + 1) i = treeAt nodes n := by
        rw [newTree_unfold hDecF i, hieq]
        show STree.mk (nodes.getD n Node.default).trans
          (F.1.map (fun t => treeOfAux F.2.2 (t + 1) t))
          (nodes.getD n Node.default).levels = treeAt nodes n
        rw [hF1, hmapeq, treeAt_unfold_inc hInc n]
      refine ⟨hm, hpre, ⟨hCa, hCb, hCc, hCd, hCe⟩, hilt, htree_i, ?_, ?_⟩
      · intro k h1 h2
        obtain ⟨t, ht, hsz⟩ := hsize k h1 h2
        exact le_trans hsz (le_of_lt (child_tree_size_lt hInc ht))
      · left
        by_contra hcon
        push_neg at hcon
        obtain ⟨t, ht, hsz⟩ := hsize i hcon hilt
        rw [htree_i] at hsz
        have := child_tree_size_lt hInc ht
        omega
    | none =>
      show CSpec nodes n map new (F.2.2.length, (x, F.2.2.length) :: F.2.1, F.2.2 ++ [x])
      have hgetlast : (F.2.2 ++ [x]).getD F.2.2.length Node.default = x := by
        rw [getD_append_right (le_refl _)]
        simp
      have hgetpres : ∀ k < F.2.2.length,
          (F.2.2 ++ [x]).getD k Node.default = F.2.2.getD k Node.default :=
        fun k hk => getD_append_left hk
      have hlen : (F.2.2 ++ [x]).length = F.2.2.length + 1 := by simp
      have hxtargets : ∀ u ∈ x.targets, u < F.2.2.length := by
        rw [hx]
        show ∀ u ∈ F.1, u < F.2.2.length
        rw [hF1]
        exact hjsmem
      have hDecExtB : ∀ k < (F.2.2 ++ [x]).length,
          ∀ t' ∈ ((F.2.2 ++ [x]).getD k Node.default).targets, t' < k := by
        intro k hk t' ht'
        by_cases hkl : k < F.2.2.length
        · rw [hgetpres k hkl] at ht'
          exact hCc k hkl t' ht'
        · have hkeq : k = F.2.2.length := by
            rw [hlen] at hk
            omega
          rw [hkeq, hgetlast] at ht'
          rw [hkeq]
          exact hxtargets t' ht'
      have hDecExt : ∀ k, ∀ t' ∈ ((F.2.2 ++ [x]).getD k Node.default).targets, t' < k :=
        dec_global_of_bounded hDecExtB
      have hstab : ∀ fz k, k < F.2.2.length →
          treeOfAux (F.2.2 ++ [x]) fz k = treeOfAux F.2.2 fz k :=
        treeOfAux_append_stable hDecF
      have htree_last :
          treeOfAux (F.2.2 ++ [x]) (F.2.2.length + 1) F.2.2.length = treeAt nodes n := by
        rw [newTree_unfold hDecExt F.2.2.length, hgetlast]
        show STree.mk (nodes.getD n Node.default).trans
          (F.1.map (fun t => treeOfAux (F.2.2 ++ [x]) (t + 1) t))
          (nodes.getD n Node.default).levels = treeAt nodes n
        rw [hF1]
        have hstabmap : js.map (fun j => treeOfAux (F.2.2 ++ [x]) (j + 1) j)
            = js.map (fun j => treeOfAux F.2.2 (j + 1) j) :=
          List.map_congr_left (fun j hj => hstab _ j (hjsmem j hj))
        rw [hstabmap, hmapeq, treeAt_unfold_inc hInc n]
      -- the five components of the new invariant
      have hCa' : ∀ p ∈ (x, F.2.2.length) :: F.2.1,
          p.2 < (F.2.2 ++ [x]).length ∧ (F.2.2 ++ [x]).getD p.2 Node.default = p.1 := by
        intro p hp
        rcases List.mem_cons.1 hp with rfl | hp'
        · exact ⟨by simp, hgetlast⟩
        · obtain ⟨h1, h2⟩ := hCa p hp'
          exact ⟨by rw [hlen]; omega, by rw [hgetpres p.2 h1]; exact h2⟩
      have hCb' : ∀ k < (F.2.2 ++ [x]).length,
          ((F.2.2 ++ [x]).getD k Node.default, k) ∈ (x, F.2.2.length) :: F.2.1 := by
        intro k hk
        by_cases hkl : k < F.2.2.length
        · rw [hgetpres k hkl]
          exact List.mem_cons_of_mem _ (hCb k hkl)
        · have hkeq : k = F.2.2.length := by
            rw [hlen] at hk
            omega
          rw [hkeq, hgetlast]
          exact List.mem_cons_self _ _
      have hCd' : ∀ k < (F.2.2 ++ [x]).length,
          ∃ i < nodes.length, treeAt nodes i = treeOfAux (F.2.2 ++ [x]) (k + 1) k := by
        intro k hk
        by_cases hkl : k < F.2.2.length
        · obtain ⟨i, hi, hti⟩ := hCd k hkl
          exact ⟨i, hi, by rw [hstab _ k hkl]; exact hti⟩
        · have hkeq : k = F.2.2.length := by
            rw [hlen] at hk
            omega
          rw [hkeq]
          exact ⟨n, hn, htree_last.symm⟩
      have hcollide : ∀ k < F.2.2.length,
          treeOfAux F.2.2 (k + 1) k = treeAt nodes n → False := by
        intro k hkl htk
        have hunf : treeOfAux F.2.2 (k + 1) k
            = STree.mk (F.2.2.getD k Node.default).trans
              ((F.2.2.getD k Node.default).targets.map (fun t => treeOfAux F.2.2 (t + 1) t))
              (F.2.2.getD k Node.default).levels := newTree_unfold hDecF k
        have hn' : treeAt nodes n
            = STree.mk (nodes.getD n Node.default).trans
              (js.map (fun j => treeOfAux F.2.2 (j + 1) j))
              (nodes.getD n Node.default).levels := by
          rw [hmapeq, treeAt_unfold_inc hInc n]
        rw [hunf, hn'] at htk
        obtain ⟨htr, hch, hlv⟩ := STree_mk_inj htk
        have htg : (F.2.2.getD k Node.default).targets = js := by
          apply map_eq_map_inj hch
          intro a ha b hb hab
          exact hCe a (lt_trans (hCc k hkl a ha) hkl) b (hjsmem b hb) hab
        have hxeq : F.2.2.getD k Node.default = x := by
          cases hnode : F.2.2.getD k Node.default with
          | mk tr tg lv =>
            rw [hnode] at htr htg hlv
            simp only at htr htg hlv
            rw [hx, hF1, ← htr, ← htg, ← hlv]
        have hxmem : (x, k) ∈ F.2.1 := by
          rw [← hxeq]
          exact hCb k hkl
        exact absurd rfl (assocFind_none_iff.1 hfind (x, k) hxmem)
      have hCe' : ∀ k < (F.2.2 ++ [x]).length, ∀ k' < (F.2.2 ++ [x]).length,
          treeOfAux (F.2.2 ++ [x]) (k + 1) k = treeOfAux (F.2.2 ++ [x]) (k' + 1) k' →
          k = k' := by
        intro k hk k' hk' heq
        by_cases h1 : k < F.2.2.length <;> by_cases h2 : k' < F.2.2.length
        · rw [hstab _ k h1, hstab _ k' h2] at heq
          exact hCe k h1 k' h2 heq
        · exfalso
          have hk'eq : k' = F.2.2.length := by
            rw [hlen] at hk'
            omega
          rw [hstab _ k h1, hk'eq, htree_last] at heq
          exact hcollide k h1 heq
        · exfalso
          have hkeq : k = F.2.2.length := by
            rw [hlen] at hk
            omega
          rw [hstab _ k' h2, hkeq, htree_last] at heq
          exact hcollide k' h2 heq.symm
        · rw [hlen] at hk hk'
          omega
      refine ⟨?_, ?_, ⟨hCa', hCb', hDecExtB, hCd', hCe'⟩, by simp, htree_last, ?_, ?_⟩
      · intro p hp
        exact List.mem_cons_of_mem _ (hm p hp)
      · exact hpre.trans (List.prefix_append _ _)
      · intro k hk1 hk2
        by_cases hkl : k < F.2.2.length
        · obtain ⟨t, ht, hsz⟩ := hsize k hk1 hkl
          rw [hstab _ k hkl]
          exact le_trans hsz (le_of_lt (child_tree_size_lt hInc ht))
        · have hkeq : k = F.2.2.length := by
            rw [hlen] at hk2
            omega
          rw [hkeq, htree_last]
      · right
        simp

/-- The empty map/table satisfy the invariant. -/
lemma CInv_empty (nodes : List Node) : CInv nodes [] [] :=
  ⟨fun p hp => absurd hp (by simp),
    fun k hk => absurd hk (by simp),
    fun k hk => absurd hk (by simp),
    fun k hk => absurd hk (by simp),
    fun k hk => absurd hk (by simp)⟩

/-- The specification of the whole `compress` run. -/
lemma compress_run_spec (b : TrieBuilder) (h0 : 0 < b.nodes.length) (hinv : RawInv b) :
    CSpec b.nodes 0 [] [] (compressNodeF b.nodes b.nodes.length 0 [] []) :=
  compressNodeF_spec b.nodes (inc_global_of_rawInv hinv) b.nodes.length 0 [] [] h0
    (by omega) (CInv_empty b.nodes)

lemma compress_nodes_eq (b : TrieBuilder) :
    b.compress.nodes = (compressNodeF b.nodes b.nodes.length 0 [] []).2.2 := rfl

lemma compress_root_eq (b : TrieBuilder) :
    b.compress.root = (compressNodeF b.nodes b.nodes.length 0 [] []).1 := rfl

lemma compress_levels_eq (b : TrieBuilder) : b.compress.levels = b.levels := rfl

lemma sizeWith_pos (s : Nat) (nd : Node) : 0 < sizeWith s nd := by
  unfold sizeWith
  omega

/-- True addresses are strictly increasing in the node index. -/
lemma addr_strict_mono (b : TrieBuilder) {t i : Nat} (h : t < i) : b.addr t < b.addr i := by
  unfold TrieBuilder.addr
  have hsub : Finset.range t ⊆ Finset.range i := Finset.range_subset.2 (by omega)
  have hlt :
      (∑ j ∈ Finset.range t, sizeWith (b.strideD j) (b.nodes.getD j Node.default))
        < ∑ j ∈ Finset.range i, sizeWith (b.strideD j) (b.nodes.getD j Node.default) :=
    Finset.sum_lt_sum_of_subset hsub (Finset.mem_range.2 h) (by simp)
      (sizeWith_pos _ _) (fun j _ _ => Nat.zero_le _)
  omega

/-- C9: after `compress`, the canonical node table is topologically ordered —
every target stored in node `i` is strictly less than `i`, the canonical
root is the last index of the (nonempty) table, and every encoded target
delta points backwards in the layout (the target's address is strictly below
the node's own address), so the structure is acyclic by construction. -/
theorem c9_topological_order (b : TrieBuilder) (h0 : 0 < b.nodes.length)
    (hinv : RawInv b) :
    (∀ k < b.compress.nodes.length,
      ∀ t ∈ (b.compress.nodes.getD k Node.default).targets, t < k) ∧
    0 < b.compress.nodes.length ∧
    b.compress.root = b.compress.nodes.length - 1 ∧
    (∀ i < b.compress.nodes.length,
      ∀ t ∈ (b.compress.nodes.getD i Node.default).targets,
      b.compress.addr t < b.compress.addr i) := by
  obtain ⟨-, -, hCI, hrlt, -, -, hfresh⟩ := compress_run_spec b h0 hinv
  obtain ⟨-, -, hCc, -, -⟩ := hCI
  rw [compress_nodes_eq, compress_root_eq]
  refine ⟨hCc, by omega, ?_, ?_⟩
  · rcases hfresh with h | h
    · exact absurd h (by simp)
    · omega
  · intro i hi t ht
    exact addr_strict_mono _ (hCc i hi t ht)

/-! ## `insert` preserves the trie shape -/

lemma insertLoop_rawInv :
    ∀ (bs : List Nat) (nodes : List Node) (state dist : Nat) (acc : List (Nat × Nat)),
      state < nodes.length →
      (∀ i, ∀ t ∈ (nodes.getD i Node.default).targets, i < t ∧ t < nodes.length) →
      (∀ i, ∀ t ∈ ((insertLoop nodes state dist acc bs).1.getD i Node.default).targets,
        i < t ∧ t < (insertLoop nodes state dist acc bs).1.length) := by
  intro bs
  induction bs with
  | nil =>
    intro nodes state dist acc _ hw
    exact hw
  | cons b bs ih =>
    intro nodes state dist acc hs hw
    by_cases hd : isDigit b
    · simpa [insertLoop, hd] using ih nodes state 0 (acc ++ [(dist, b - 48)]) hs hw
    · simp only [insertLoop, hd, Bool.false_eq_true, if_false]
      cases hfind : (nodes.getD state Node.default).trans.findIdx? (· == b) with
      | some i =>
        apply ih
        · by_cases hi : i < (nodes.getD state Node.default).targets.length
          · exact (hw state ((nodes.getD state Node.default).targets.getD i 0) (getD_mem hi)).2
          · rw [List.getD_eq_default _ _ (by omega)]
            omega
        · exact hw
      | none =>
        set nd := nodes.getD state Node.default with hnd
        set nodes' := nodes.set state
          { nd with trans := nd.trans ++ [b], targets := nd.targets ++ [nodes.length] }
          ++ [Node.default] with hnodes'
        have hwf' : ∀ i, ∀ t ∈ (nodes'.getD i Node.default).targets,
            i < t ∧ t < nodes'.length := by
          intro i t ht
          have hlen' : nodes'.length = nodes.length + 1 := by simp [hnodes']
          rw [hlen']
          by_cases hi : i < nodes.length
          · rw [hnodes', getD_append_left (by simpa using hi)] at ht
            by_cases his : i = state
            · subst his
              rw [getD_set_self hi] at ht
              simp only [] at ht
              rcases List.mem_append.1 ht with h1 | h1
              · obtain ⟨ha, hb⟩ := hw i t h1
                omega
              · simp at h1
                omega
            · rw [getD_set_ne (fun h => his h.symm)] at ht
              obtain ⟨ha, hb⟩ := hw i t ht
              omega
          · rw [hnodes', getD_append_right (by simpa using hi), getD_singleton_default] at ht
            simp [Node.default] at ht
        exact ih nodes' nodes.length (dist + 1) acc (by simp [hnodes']) hwf'

lemma insert_rawInv {b : TrieBuilder} (p : List Nat) (h0 : 0 < b.nodes.length)
    (h : RawInv b) :
    RawInv (b.insert p) ∧ 0 < (b.insert p).nodes.length ∧ (b.insert p).root = b.root := by
  have hglob := inc_global_of_rawInv h
  have hloop := insertLoop_rawInv p b.nodes 0 0 [] h0 hglob
  have hlen := (insertLoop_inv p b.nodes 0 0 [] h0
    (fun i t ht => (hglob i t ht).2)).2.2
  refine ⟨?_, ?_, rfl⟩
  · intro i hi t ht
    simp only [TrieBuilder.insert] at hi ht
    rw [List.length_set] at hi
    by_cases his : i = (insertLoop b.nodes 0 0 [] p).2.1
    · have hslt : (insertLoop b.nodes 0 0 [] p).2.1 < (insertLoop b.nodes 0 0 [] p).1.length :=
        (insertLoop_inv p b.nodes 0 0 [] h0 (fun i t ht => (hglob i t ht).2)).1
      rw [his, getD_set_self hslt] at ht
      simp only [] at ht
      have := hloop (insertLoop b.nodes 0 0 [] p).2.1 t ht
      simp only [TrieBuilder.insert, List.length_set]
      rw [his]
      exact this
    · rw [getD_set_ne (fun hh => his hh.symm)] at ht
      have := hloop i t ht
      simp only [TrieBuilder.insert, List.length_set]
      exact this
  · simp only [TrieBuilder.insert, List.length_set]
    omega

lemma rawInv_new : RawInv TrieBuilder.new := by decide

lemma buildFrom_inv (ps : List (List Nat)) :
    RawInv (buildFrom ps) ∧ 0 < (buildFrom ps).nodes.length ∧ (buildFrom ps).root = 0 := by
  unfold buildFrom
  have : ∀ (qs : List (List Nat)) (b : TrieBuilder),
      RawInv b → 0 < b.nodes.length → b.root = 0 →
      RawInv (qs.foldl TrieBuilder.insert b) ∧
      0 < (qs.foldl TrieBuilder.insert b).nodes.length ∧
      (qs.foldl TrieBuilder.insert b).root = 0 := by
    intro qs
    induction qs with
    | nil => intro b h1 h2 h3; exact ⟨h1, h2, h3⟩
    | cons q qs ih =>
      intro b h1 h2 h3
      obtain ⟨g1, g2, g3⟩ := insert_rawInv q h2 h1
      simpa using ih (b.insert q) g1 g2 (by rw [g3, h3])
  exact this ps TrieBuilder.new rawInv_new (by decide) rfl

/-! ## Walk simulation from subtree equality (C2) -/

lemma walk_cons_oob {nodes : List Node} {s : Nat} (h : nodes.length ≤ s) (c : Nat)
    (w : List Nat) : walk nodes s (c :: w) = none := by
  have hg : nodes.get? s = none := by
    rw [List.get?_eq_getElem?]
    exact List.getElem?_eq_none h
  show (match nodes.get? s with
    | none => none
    | some nd =>
      match nd.trans.findIdx? (· == c) with
      | none => none
      | some i =>
        match nd.targets.get? i with
        | none => none
        | some t => walk nodes t w) = none
  rw [hg]

lemma walk_cons_in {nodes : List Node} {s : Nat} (h : s < nodes.length) (c : Nat)
    (w : List Nat) :
    walk nodes s (c :: w) =
      match (nodes.getD s Node.default).trans.findIdx? (· == c) with
      | none => none
      | some i =>
        match (nodes.getD s Node.default).targets.get? i with
        | none => none
        | some t => walk nodes t w := by
  have hg : nodes.get? s = some (nodes.getD s Node.default) := by
    rw [List.get?_eq_getElem?, List.getElem?_eq_getElem h, List.getD_eq_getElem _ _ h]
  show (match nodes.get? s with
    | none => none
    | some nd =>
      match nd.trans.findIdx? (· == c) with
      | none => none
      | some i =>
        match nd.targets.get? i with
        | none => none
        | some t => walk nodes t w) = _
  rw [hg]

/-- Walking is fully determined by the unravelled subtree: if an old-table
state and a new-table state have equal subtrees, walks from them either both
fail or both reach states with equal subtrees. -/
lemma walk_sim {A B : List Node}
    (hIncA : ∀ i, ∀ t ∈ (A.getD i Node.default).targets, i < t ∧ t < A.length)
    (hDecB : ∀ k, ∀ t ∈ (B.getD k Node.default).targets, t < k) :
    ∀ (w : List Nat) (sA sB : Nat),
      treeAt A sA = treeOfAux B (sB + 1) sB →
      (walk A sA w = none ∧ walk B sB w = none) ∨
      (∃ mA mB, walk A sA w = some mA ∧ walk B sB w = some mB ∧
        treeAt A mA = treeOfAux B (mB + 1) mB) := by
  intro w
  induction w with
  | nil =>
    intro sA sB h
    exact Or.inr ⟨sA, sB, rfl, rfl, h⟩
  | cons c w ih =>
    intro sA sB h
    rw [treeAt_unfold_inc hIncA sA, newTree_unfold hDecB sB] at h
    obtain ⟨htr, hch, hlv⟩ := STree_mk_inj h
    cases hidx : (A.getD sA Node.default).trans.findIdx? (· == c) with
    | none =>
      left
      have hidxB : (B.getD sB Node.default).trans.findIdx? (· == c) = none := by
        rw [← htr]
        exact hidx
      constructor
      · by_cases hsa : sA < A.length
        · rw [walk_cons_in hsa]
          simp only [hidx]
        · exact walk_cons_oob (by omega) c w
      · by_cases hsb : sB < B.length
        · rw [walk_cons_in hsb]
          simp only [hidxB]
        · exact walk_cons_oob (by omega) c w
    | some i =>
      have htrne : (A.getD sA Node.default).trans ≠ [] := by
        intro hc
        rw [hc] at hidx
        cases hidx
      have hsa : sA < A.length := by
        by_contra hc
        apply htrne
        rw [List.getD_eq_default _ _ (by omega)]
        rfl
      have hsb : sB < B.length := by
        by_contra hc
        apply htrne
        rw [htr, List.getD_eq_default _ _ (by omega)]
        rfl
      have hidxB : (B.getD sB Node.default).trans.findIdx? (· == c) = some i := by
        rw [← htr]
        exact hidx
      have hlen : (A.getD sA Node.default).targets.length
          = (B.getD sB Node.default).targets.length := by
        have := congrArg List.length hch
        simpa using this
      cases hta : (A.getD sA Node.default).targets.get? i with
      | none =>
        have hige : (A.getD sA Node.default).targets.length ≤ i := by
          rw [List.get?_eq_getElem?] at hta
          by_contra hc
          rw [List.getElem?_eq_getElem (by omega)] at hta
          cases hta
        have htb : (B.getD sB Node.default).targets.get? i = none := by
          rw [List.get?_eq_getElem?]
          exact List.getElem?_eq_none (by omega)
        left
        constructor
        · rw [walk_cons_in hsa]
          simp only [hidx, hta]
        · rw [walk_cons_in hsb]
          simp only [hidxB, htb]
      | some tA =>
        have hi : i < (A.getD sA Node.default).targets.length := by
          rw [List.get?_eq_getElem?] at hta
          by_contra hc
          rw [List.getElem?_eq_none (by omega)] at hta
          cases hta
        obtain ⟨tB, htb⟩ : ∃ tB, (B.getD sB Node.default).targets.get? i = some tB := by
          rw [List.get?_eq_getElem?, List.getElem?_eq_getElem (by omega)]
          exact ⟨_, rfl⟩
        have htrees : treeAt A tA = treeOfAux B (tB + 1) tB := by
          have hmap := congrArg (fun l => l.get? i) hch
          simp only [List.get?_map, hta, htb] at hmap
          simpa using hmap
        rcases ih tA tB htrees with ⟨h1, h2⟩ | ⟨mA, mB, h1, h2, h3⟩
        · left
          constructor
          · rw [walk_cons_in hsa]
            simp only [hidx, hta]
            exact h1
          · rw [walk_cons_in hsb]
            simp only [hidxB, htb]
            exact h2
        · right
          refine ⟨mA, mB, ?_, ?_, h3⟩
          · rw [walk_cons_in hsa]
            simp only [hidx, hta]
            exact h1
          · rw [walk_cons_in hsb]
            simp only [hidxB, htb]
            exact h2

/-- C2: minimization preserves language. For a builder constructed by
inserting any pattern list, every walk that reaches a node `n` in the
pre-compress trie also succeeds in the compressed table from the canonical
root, reaching a node with the identical priority reference, over the
unchanged shared priority table.  (The walk itself is modelled from the
spec, as the runtime decoder is not part of the analyzed source.) -/
theorem c2_minimization_preserves_language (ps : List (List Nat)) (w : List Nat) (n : Nat)
    (hw : walk (buildFrom ps).nodes (buildFrom ps).root w = some n) :
    ∃ m, walk (buildFrom ps).compress.nodes (buildFrom ps).compress.root w = some m ∧
      ((buildFrom ps).compress.nodes.getD m Node.default).levels
        = ((buildFrom ps).nodes.getD n Node.default).levels ∧
      (buildFrom ps).compress.levels = (buildFrom ps).levels := by
  obtain ⟨hri, h0, hroot⟩ := buildFrom_inv ps
  have hInc := inc_global_of_rawInv hri
  obtain ⟨-, -, hCI, hrlt, hrtree, -, -⟩ := compress_run_spec (buildFrom ps) h0 hri
  obtain ⟨-, -, hCc, -, -⟩ := hCI
  have hDec := dec_global_of_bounded hCc
  rw [hroot] at hw
  rcases walk_sim hInc hDec w 0
      (compressNodeF (buildFrom ps).nodes (buildFrom ps).nodes.length 0 [] []).1
      hrtree.symm with ⟨h1, h2⟩ | ⟨mA, mB, h1, h2, h3⟩
  · rw [hw] at h1
    cases h1
  · rw [hw] at h1
    injection h1 with h1
    subst h1
    refine ⟨mB, ?_, ?_, compress_levels_eq _⟩
    · rw [compress_nodes_eq, compress_root_eq]
      exact h2
    · rw [compress_nodes_eq]
      rw [treeAt_unfold_inc hInc, newTree_unfold hDec] at h3
      exact (STree_mk_inj h3).2.2.symm

/-- Witness for `c2_minimization_preserves_language`: the pattern `".a1b"`
inserted alone; walking its letters reaches the terminal both before and
after compression with the same reference. -/
theorem c2_minimization_preserves_language_witness :
    walk (buildFrom [[46, 97, 49, 98]]).nodes (buildFrom [[46, 97, 49, 98]]).root
      [46, 97, 98] = some 3 ∧
    (∃ m, walk (buildFrom [[46, 97, 49, 98]]).compress.nodes
        (buildFrom [[46, 97, 49, 98]]).compress.root [46, 97, 98] = some m ∧
      ((buildFrom [[46, 97, 49, 98]]).compress.nodes.getD m Node.default).levels
        = ((buildFrom [[46, 97, 49, 98]]).nodes.getD 3 Node.default).levels ∧
      (buildFrom [[46, 97, 49, 98]]).compress.levels = (buildFrom [[46, 97, 49, 98]]).levels) :=
  ⟨by decide, c2_minimization_preserves_language [[46, 97, 49, 98]] [46, 97, 98] 3 (by decide)⟩

/-! ## C6: minimization is a true reduction -/

lemma ncard_Iio_nat (n : Nat) : (Set.Iio n).ncard = n := by
  rw [← Finset.coe_range, Set.ncard_coe_Finset, Finset.card_range]

/-- C6: for every trie (with the shape produced by `insert`), the node-table
length after `compress` is at most the length before, and equality forces
all subtrees of the original trie to be pairwise non-isomorphic. -/
theorem c6_true_reduction (b : TrieBuilder) (h0 : 0 < b.nodes.length)
    (hinv : RawInv b) :
    b.compress.nodes.length ≤ b.nodes.length ∧
    (b.compress.nodes.length = b.nodes.length →
      ∀ i < b.nodes.length, ∀ j < b.nodes.length, i ≠ j →
        treeAt b.nodes i ≠ treeAt b.nodes j) := by
  obtain ⟨-, -, hCI, -, -, -, -⟩ := compress_run_spec b h0 hinv
  obtain ⟨-, -, -, hCd, hCe⟩ := hCI
  rw [compress_nodes_eq]
  set NB := (compressNodeF b.nodes b.nodes.length 0 [] []).2.2 with hNB
  have hmaps : Set.MapsTo (fun k => treeOfAux NB (k + 1) k) (Set.Iio NB.length)
      (treeAt b.nodes '' Set.Iio b.nodes.length) := by
    intro k hk
    obtain ⟨i, hi, hti⟩ := hCd k hk
    exact ⟨i, hi, hti⟩
  have hinj : Set.InjOn (fun k => treeOfAux NB (k + 1) k) (Set.Iio NB.length) :=
    fun k hk k' hk' heq => hCe k hk k' hk' heq
  have hfin : (treeAt b.nodes '' Set.Iio b.nodes.length).Finite :=
    (Set.finite_Iio _).image _
  have hle : NB.length ≤ (treeAt b.nodes '' Set.Iio b.nodes.length).ncard := by
    calc NB.length = (Set.Iio NB.length).ncard := (ncard_Iio_nat _).symm
      _ ≤ _ := Set.ncard_le_ncard_of_injOn _ hmaps hinj hfin
  constructor
  · calc NB.length ≤ (treeAt b.nodes '' Set.Iio b.nodes.length).ncard := hle
      _ ≤ (Set.Iio b.nodes.length).ncard := Set.ncard_image_le (Set.finite_Iio _)
      _ = b.nodes.length := ncard_Iio_nat _
  · intro hLeq i hi j hj hij hfeq
    have himg : treeAt b.nodes '' Set.Iio b.nodes.length
        = treeAt b.nodes '' (Set.Iio b.nodes.length \ {j}) := by
      apply Set.Subset.antisymm
      · rintro y ⟨k, hk, rfl⟩
        by_cases hkj : k = j
        · refine ⟨i, ⟨hi, by simp [hij]⟩, ?_⟩
          rw [hkj]
          exact hfeq
        · exact ⟨k, ⟨hk, by simp [hkj]⟩, rfl⟩
      · rintro y ⟨k, hk, rfl⟩
        exact ⟨k, hk.1, rfl⟩
    have hcard2 : (treeAt b.nodes '' (Set.Iio b.nodes.length \ {j})).ncard
        ≤ (Set.Iio b.nodes.length \ {j}).ncard :=
      Set.ncard_image_le ((Set.finite_Iio _).diff _)
    have hdiff : (Set.Iio b.nodes.length \ {j}).ncard = b.nodes.length - 1 := by
      rw [Set.ncard_diff_singleton_of_mem (show j ∈ Set.Iio b.nodes.length from hj)
        (Set.finite_Iio _), ncard_Iio_nat]
    have hcon : b.nodes.length ≤ b.nodes.length - 1 := by
      calc b.nodes.length = NB.length := hLeq.symm
        _ ≤ (treeAt b.nodes '' Set.Iio b.nodes.length).ncard := hle
        _ = (treeAt b.nodes '' (Set.Iio b.nodes.length \ {j})).ncard := by rw [himg]
        _ ≤ (Set.Iio b.nodes.length \ {j}).ncard := hcard2
        _ = b.nodes.length - 1 := hdiff
    omega

/-- Witness for `c6_true_reduction` at the one-pattern builder for `".a1b"`. -/
theorem c6_true_reduction_witness :
    0 < (buildFrom [[46, 97, 49, 98]]).nodes.length ∧
    RawInv (buildFrom [[46, 97, 49, 98]]) ∧
    ((buildFrom [[46, 97, 49, 98]]).compress.nodes.length
        ≤ (buildFrom [[46, 97, 49, 98]]).nodes.length ∧
      ((buildFrom [[46, 97, 49, 98]]).compress.nodes.length
          = (buildFrom [[46, 97, 49, 98]]).nodes.length →
        ∀ i < (buildFrom [[46, 97, 49, 98]]).nodes.length,
          ∀ j < (buildFrom [[46, 97, 49, 98]]).nodes.length, i ≠ j →
            treeAt (buildFrom [[46, 97, 49, 98]]).nodes i
              ≠ treeAt (buildFrom [[46, 97, 49, 98]]).nodes j)) :=
  ⟨by decide, by decide, c6_true_reduction (buildFrom [[46, 97, 49, 98]]) (by decide) (by decide)⟩

/-- Witness for `c9_topological_order` at the one-pattern builder for `".a1b"`. -/
theorem c9_topological_order_witness :
    0 < (buildFrom [[46, 97, 49, 98]]).nodes.length ∧
    RawInv (buildFrom [[46, 97, 49, 98]]) ∧
    ((∀ k < (buildFrom [[46, 97, 49, 98]]).compress.nodes.length,
        ∀ t ∈ ((buildFrom [[46, 97, 49, 98]]).compress.nodes.getD k Node.default).targets,
          t < k) ∧
      0 < (buildFrom [[46, 97, 49, 98]]).compress.nodes.length ∧
      (buildFrom [[46, 97, 49, 98]]).compress.root
        = (buildFrom [[46, 97, 49, 98]]).compress.nodes.length - 1 ∧
      (∀ i < (buildFrom [[46, 97, 49, 98]]).compress.nodes.length,
        ∀ t ∈ ((buildFrom [[46, 97, 49, 98]]).compress.nodes.getD i Node.default).targets,
          (buildFrom [[46, 97, 49, 98]]).compress.addr t
            < (buildFrom [[46, 97, 49, 98]]).compress.addr i)) :=
  ⟨by decide, by decide,
    c9_topological_order (buildFrom [[46, 97, 49, 98]]) (by decide) (by decide)⟩

/-! ## Concrete scenarios (C7, C8) -/

/-- C7, counterexample: inserting `".ab1c"` then `".ab2d"` (byte lists
`[46,97,98,49,99]` and `[46,97,98,50,100]`) reaches, via `c`, a terminal node
whose priority reference denotes the sequence `[(3,1)]`, not `[(2,1)]` as the
claim states: the gap counts all three preceding non-digit bytes `.`,`a`,`b`. -/
theorem c7_counterexample :
    walk (buildFrom [[46,97,98,49,99],[46,97,98,50,100]]).nodes 0 [46,97,98,99] = some 4 ∧
    ((buildFrom [[46,97,98,49,99],[46,97,98,50,100]]).nodes.getD 4 Node.default).levels
      = some (0, 1) ∧
    (((buildFrom [[46,97,98,49,99],[46,97,98,50,100]]).levels.drop 0).take 1) = [(3, 1)] ∧
    [((3 : Nat), (1 : Nat))] ≠ [(2, 1)] := by
  decide

/-- C7 (amended): inserting exactly `".ab1c"` then `".ab2d"` produces a trie of
6 nodes in which the `.`,`a`,`b` prefix path is shared (walking the three
prefixes reaches nodes 1, 2, 3), the two terminal nodes reached via `c` and
via `d` are the distinct nodes 4 and 5, their priority references denote the
one-entry sequences `(3,1)` respectively `(3,2)` (the gap counts the three
letters `.`,`a`,`b` preceding the digit), and the shared priority table is
exactly `[(3,1),(3,2)]` of length 2. -/
theorem c7_scenario :
    (buildFrom [[46,97,98,49,99],[46,97,98,50,100]]).nodes.length = 6 ∧
    walk (buildFrom [[46,97,98,49,99],[46,97,98,50,100]]).nodes 0 [46] = some 1 ∧
    walk (buildFrom [[46,97,98,49,99],[46,97,98,50,100]]).nodes 0 [46,97] = some 2 ∧
    walk (buildFrom [[46,97,98,49,99],[46,97,98,50,100]]).nodes 0 [46,97,98] = some 3 ∧
    walk (buildFrom [[46,97,98,49,99],[46,97,98,50,100]]).nodes 0 [46,97,98,99] = some 4 ∧
    walk (buildFrom [[46,97,98,49,99],[46,97,98,50,100]]).nodes 0 [46,97,98,100] = some 5 ∧
    ((buildFrom [[46,97,98,49,99],[46,97,98,50,100]]).nodes.getD 4 Node.default).levels
      = some (0, 1) ∧
    ((buildFrom [[46,97,98,49,99],[46,97,98,50,100]]).nodes.getD 5 Node.default).levels
      = some (1, 1) ∧
    (buildFrom [[46,97,98,49,99],[46,97,98,50,100]]).levels = [(3, 1), (3, 2)] := by
  decide

/-- C8: inserting `".a1b2c"` (bytes `[46,97,49,98,50,99]`) twice leaves the
builder exactly as after the first insertion (so in particular the node table
and priority table sizes are unchanged), and after `compress` there is a
single terminal node, reached by the pattern's letters, still carrying the
reference `(0, 2)` to the unchanged priority table `[(2,1),(1,2)]`. -/
theorem c8_idempotent :
    (buildFrom [[46,97,49,98,50,99]]).insert [46,97,49,98,50,99]
      = buildFrom [[46,97,49,98,50,99]] ∧
    ((buildFrom [[46,97,49,98,50,99]]).compress.nodes.filter
      (fun nd => nd.levels.isSome)).length = 1 ∧
    walk (buildFrom [[46,97,49,98,50,99]]).compress.nodes
      (buildFrom [[46,97,49,98,50,99]]).compress.root [46,97,98,99] = some 0 ∧
    ((buildFrom [[46,97,49,98,50,99]]).compress.nodes.getD 0 Node.default).levels
      = some (0, 2) ∧
    (buildFrom [[46,97,49,98,50,99]]).compress.levels = [(2, 1), (1, 2)] := by
  decide

end Hypher
